import Mathlib

/-!
Verification of the subtitle editor of the `speech_to_text` repository.

The development shallowly embeds the JavaScript code of the repository:

* JS strings are `List Char` (`Str` below); JS `undefined`/`null`/NaN outcomes
  are modelled with `Option`.
* JS numbers are modelled with exact rationals `ℚ` (integers with `Int`/`Nat`);
  IEEE-754 rounding is not modelled, the arithmetic is exact.
* the SRT codec, the time conversions, the drag constraint logic and the
  active-cue scan come from the frontend `App` component
  (`parseSRT`, `generateSRTContent`, `timeToSeconds`, `secondsToSRTTime`,
  `getTimeConstraints`, `handleSubtitleDrag`, the `findIndex` effect);
* the backend controller (`saveSubtitles`, `deleteSubtitle`) acts on an
  explicit database state, with the Sequelize transaction modelled as
  "error paths return the original state".
-/

namespace SrtApp

/-- JS strings, embedded as lists of characters. -/
abbrev Str := List Char

/-- The whitespace class used by JS `trim` and the regex `\s` on the
characters that occur in this code base: space, tab, LF, VT, FF, CR, NBSP
(`' '` = 32, tab = 9, LF = 10, VT = 11, FF = 12, CR = 13, NBSP = 160). -/
def isWS (c : Char) : Bool :=
  c = ' ' ∨ c = '\t' ∨ c = '\n' ∨ c = '\x0b' ∨ c = '\x0c' ∨ c = '\r' ∨ c = '\xa0'

/-- Decimal digit: `'0'` (48) … `'9'` (57). -/
def isDigit (c : Char) : Bool := 48 ≤ c.toNat ∧ c.toNat ≤ 57

/-- Hexadecimal digit (for JS `parseInt` without an explicit radix). -/
def isHexDigit (c : Char) : Bool :=
  isDigit c ∨ (97 ≤ c.toNat ∧ c.toNat ≤ 102) ∨ (65 ≤ c.toNat ∧ c.toNat ≤ 70)

/-- Numeric value of a (hex) digit character. -/
def digitVal (c : Char) : Nat :=
  if isDigit c then c.toNat - 48
  else if 97 ≤ c.toNat ∧ c.toNat ≤ 102 then c.toNat - 87
  else c.toNat - 55

/-- JS `String.prototype.trimStart`. -/
def trimLeft (s : Str) : Str := s.dropWhile isWS

/-- JS `String.prototype.trimEnd`. -/
def trimRight (s : Str) : Str := (s.reverse.dropWhile isWS).reverse

/-- JS `String.prototype.trim`. -/
def trim (s : Str) : Str := trimRight (trimLeft s)

/-- JS `String.prototype.split` with a single-character-class separator
(`"a,b".split(/[,.]/)`, `"a:b".split(":")`): the list of chunks between
separator characters.  `""` splits to `[""]`. -/
def splitOnP (p : Char → Bool) : Str → List Str
  | [] => [[]]
  | c :: rest =>
      match splitOnP p rest with
      | [] => [[]]
      | l :: ls => if p c then [] :: l :: ls else (c :: l) :: ls

/-- JS `split` on one literal character. -/
def splitOnChar (sep : Char) : Str → List Str := splitOnP (fun c => c = sep)

/-- JS `String.prototype.padStart(n, c)`. -/
def padStart (n : Nat) (c : Char) (s : Str) : Str :=
  List.replicate (n - s.length) c ++ s

/-- Value of a digit string read in base 10 (leading zeros allowed). -/
def digitsToNat (s : Str) : Nat := s.foldl (fun a c => a * 10 + (c.toNat - 48)) 0

/-- Decimal digits of `n`, most significant first; `fuel`-structured so that
the definition reduces (any `fuel > n` gives the digits). -/
def natToStrAux : Nat → Nat → Str
  | 0, _ => []
  | fuel + 1, n =>
      if n < 10 then [Nat.digitChar n]
      else natToStrAux fuel (n / 10) ++ [Nat.digitChar (n % 10)]

/-- JS `Number.prototype.toString` on a non-negative integer. -/
def natToStr (n : Nat) : Str := natToStrAux (n + 1) n

/-- JS `Number.prototype.toString` on an integer. -/
def intToStr (n : Int) : Str :=
  if n < 0 then '-' :: natToStr n.natAbs else natToStr n.toNat

/-- JS `parseInt(s)` / `parseInt(s, 10)`: skip leading whitespace, optional
sign, optional `0x`/`0X` hex prefix (absent with radix 10, but a digit never
follows `0x`­-style prefixes in this code), then the maximal run of digits;
`none` models the NaN outcome. -/
def jsParseInt (s : Str) : Option Int :=
  let s1 := s.dropWhile isWS
  let neg : Bool := s1.headD ' ' = '-'
  let s2 := if s1.headD ' ' = '-' ∨ s1.headD ' ' = '+' then s1.drop 1 else s1
  let hex : Bool :=
    s2.headD ' ' = '0' ∧ ((s2.drop 1).headD ' ' = 'x' ∨ (s2.drop 1).headD ' ' = 'X')
  let s3 := if hex then s2.drop 2 else s2
  let ds := s3.takeWhile (fun c => if hex then isHexDigit c else isDigit c)
  if ds = [] then none
  else
    let v : Nat := ds.foldl (fun a c => a * (if hex then 16 else 10) + digitVal c) 0
    some (if neg then -(v : Int) else (v : Int))

/-- JS `Number(s)` restricted to the strings that reach it in this code:
the components of a `HH:MM:SS` time, which are all-digit strings whenever the
surrounding theorems apply (their canonical-timestamp hypotheses guarantee
it).  Other shapes are mapped to `none` (the NaN outcome for the
non-numeric strings exercised here). -/
def jsNumberDigits (s : Str) : Option Nat :=
  if s ≠ [] ∧ s.all isDigit then some (digitsToNat s) else none

/-- `timeToSeconds` (`frontend/src/utils/timeUtils.js` and the identical
in-component copy): split on `/[,.]/`, destructure `HH:MM:SS`, add
`parseInt(ms)/1000`.  The `null` return for a falsy argument and every NaN
outcome are modelled as `none`. -/
def timeToSeconds (timeStr : Str) : Option ℚ :=
  if timeStr = [] then none
  else
    let parts := splitOnP (fun c => c = ',' ∨ c = '.') timeStr
    let timePart := parts.headD []
    let msPart : Option Str := (parts.drop 1).head?
    match splitOnChar ':' timePart with
    | hh :: mm :: ss :: _ =>
        match jsNumberDigits hh, jsNumberDigits mm, jsNumberDigits ss with
        | some h, some m, some s =>
            match msPart with
            | none => some ((h : ℚ) * 3600 + m * 60 + s)
            | some ms =>
                if ms = [] then some ((h : ℚ) * 3600 + m * 60 + s)
                else
                  match jsParseInt ms with
                  | some v => some ((h : ℚ) * 3600 + m * 60 + s + (v : ℚ) / 1000)
                  | none => none
        | _, _, _ => none
    | _ => none

/-- Truncation towards zero, as JS `%` computes its implicit quotient. -/
def rtrunc (q : ℚ) : ℤ := if 0 ≤ q then ⌊q⌋ else ⌈q⌉

/-- JS remainder `a % b` (sign of the dividend). -/
def jsMod (a b : ℚ) : ℚ := a - b * rtrunc (a / b)

/-- `secondsToSRTTime`: floor out hours/minutes/seconds/milliseconds and pad. -/
def secondsToSRTTime (seconds : ℚ) : Str :=
  let hours : ℤ := ⌊seconds / 3600⌋
  let minutes : ℤ := ⌊jsMod seconds 3600 / 60⌋
  let secs : ℤ := ⌊jsMod seconds 60⌋
  let ms : ℤ := ⌊jsMod seconds 1 * 1000⌋
  padStart 2 '0' (intToStr hours) ++ ':' ::
    (padStart 2 '0' (intToStr minutes) ++ ':' ::
      (padStart 2 '0' (intToStr secs) ++ ',' :: padStart 3 '0' (intToStr ms)))

/-- JS `Array.prototype.join(sep)`: chunks interleaved with the separator
(`[].join` is the empty string). -/
def joinSep (sep : Str) : List Str → Str
  | [] => []
  | [x] => x
  | x :: xs => x ++ sep ++ joinSep sep xs

/-- First normalization step of `parseSRT`: `content.replace(/\r\n/g, "\n")`. -/
def stripCRLF : Str → Str
  | '\r' :: '\n' :: rest => '\n' :: stripCRLF rest
  | c :: rest => c :: stripCRLF rest
  | [] => []

/-- Second normalization step: `content.replace(/\r/g, "\n")`. -/
def crToLF (s : Str) : Str := s.map (fun c => if c = '\r' then '\n' else c)

/-- One attempted match of the block separator regex `/\n\s*\n/` at the head
of the string.  The regex needs a newline, then (greedily, backtracking to
keep a final newline) a whitespace run, then a newline: it matches exactly
when the maximal whitespace run after the leading `'\n'` contains another
`'\n'`, and it consumes up to the last `'\n'` of that run.  Returns the
remainder after the consumed separator. -/
def sepMatch : Str → Option Str
  | [] => none
  | c :: rest =>
      if c = '\n' then
        let run := rest.takeWhile isWS
        let tailLen := (run.reverse.takeWhile (fun d => ¬ d = '\n')).length
        if tailLen = run.length then none
        else some (rest.drop (run.length - tailLen))
      else none

/-- The scan of `content.split(/\n\s*\n/)`: accumulate characters until a
separator matches, emit the block, continue after the separator.  `fuel` only
makes the recursion structural; each step consumes at least one character,
so any `fuel ≥ s.length` computes the split. -/
def splitBlocksAux : Nat → Str → Str → List Str
  | _, [], acc => [acc.reverse]
  | 0, s, acc => [acc.reverse ++ s]
  | fuel + 1, c :: rest, acc =>
      match sepMatch (c :: rest) with
      | some rem => acc.reverse :: splitBlocksAux fuel rem []
      | none => splitBlocksAux fuel rest (c :: acc)

/-- `content.split(/\n\s*\n/)`. -/
def splitBlocks (s : Str) : List Str := splitBlocksAux s.length s []

/-- One subtitle cue as the frontend stores it:
`{ id, start, end, text }` (the `end` field is `end_` here, `end` being a
Lean keyword). -/
structure Cue where
  id : Int
  start : Str
  end_ : Str
  text : Str
deriving DecidableEq

instance : Inhabited Cue := ⟨⟨0, [], [], []⟩⟩

/-- One attempted match of `\d{2}:\d{2}:\d{2}[,.]\d{3}` at the head of the
string: the 12 matched characters and the remainder. -/
def timeToken? : Str → Option (Str × Str)
  | h1 :: h2 :: c1 :: m1 :: m2 :: c2 :: s1 :: s2 :: c3 :: d1 :: d2 :: d3 :: rest =>
      if isDigit h1 ∧ isDigit h2 ∧ c1 = ':' ∧ isDigit m1 ∧ isDigit m2 ∧ c2 = ':' ∧
          isDigit s1 ∧ isDigit s2 ∧ (c3 = ',' ∨ c3 = '.') ∧
          isDigit d1 ∧ isDigit d2 ∧ isDigit d3 then
        some ([h1, h2, c1, m1, m2, c2, s1, s2, c3, d1, d2, d3], rest)
      else none
  | _ => none

/-- One attempted match of the whole time-line regex
`(\d{2}:\d{2}:\d{2}[,.]\d{3})\s*-->\s*(\d{2}:\d{2}:\d{2}[,.]\d{3})` at the
head of the string, returning the two capture groups. -/
def timePatternAt (s : Str) : Option (Str × Str) :=
  match timeToken? s with
  | none => none
  | some (g1, r1) =>
      match r1.dropWhile isWS with
      | '-' :: '-' :: '>' :: r3 =>
          match timeToken? (r3.dropWhile isWS) with
          | some (g2, _) => some (g1, g2)
          | none => none
      | _ => none

/-- `timeLine.match(timeRegex)`: the leftmost match of the time-line regex. -/
def timeMatch? : Str → Option (Str × Str)
  | [] => none
  | c :: rest =>
      match timePatternAt (c :: rest) with
      | some g => some g
      | none => timeMatch? rest

/-- JS `String.prototype.replace` with two string arguments: replace the
first occurrence of the (one-character) pattern. -/
def jsReplaceFirst (pat repl : Char) : Str → Str
  | [] => []
  | c :: rest => if c = pat then repl :: rest else c :: jsReplaceFirst pat repl rest

/-- The sequence-number computation of `parseSubtitleBlock`:
`parseInt(lines[0].trim()) || blockIndex + 1` (both the NaN and the `0`
outcome of `parseInt` are falsy, selecting the 1-based block position). -/
def parsedSeqId (lines : List Str) (blockIndex : Nat) : Int :=
  match jsParseInt (trim (lines.headD [])) with
  | some n => if n = 0 then (blockIndex : Int) + 1 else n
  | none => (blockIndex : Int) + 1

/-- `parseSubtitleBlock(lines, blockIndex)`: sequence number with fallback,
time-line regex match, text lines joined with a single space and trimmed.
`none` models the `null` return. -/
def parseSubtitleBlock (lines : List Str) (blockIndex : Nat) : Option Cue :=
  let id : Int := parsedSeqId lines blockIndex
  let timeLine := trim ((lines.drop 1).headD [])
  let textLines := lines.drop 2
  let text := trim (joinSep [' '] textLines)
  match timeMatch? timeLine with
  | some g =>
      if text ≠ [] then
        some ⟨id, jsReplaceFirst '.' ',' g.1, jsReplaceFirst '.' ',' g.2, text⟩
      else none
  | none => none

/-- `parseSRT(content)`: normalize line endings, trim, split into blocks on
blank lines, parse each block of at least 3 lines, keep input block order. -/
def parseSRT (content : Str) : List Cue :=
  let normalizedContent := trim (crToLF (stripCRLF content))
  let blocks := splitBlocks normalizedContent
  blocks.enum.filterMap (fun p =>
    if trim p.2 = [] then none
    else
      let lines := splitOnChar '\n' (trim p.2)
      if 3 ≤ lines.length then parseSubtitleBlock lines p.1 else none)

/-- The string `" --> "` between the two timestamps of a serialized block. -/
def arrowSep : Str := ' ' :: '-' :: '-' :: '>' :: ' ' :: []

/-- A serialized block without its final newline:
`id` + `'\n'` + `start --> end` + `'\n'` + `text`. -/
def cueCore (s : Cue) : Str :=
  intToStr s.id ++ '\n' :: (s.start ++ arrowSep ++ s.end_) ++ '\n' :: s.text

/-- The template `` `${id}\n${start} --> ${end}\n${text}\n` `` of
`generateSRTContent`. -/
def cueBlock (s : Cue) : Str := cueCore s ++ ['\n']

/-- `generateSRTContent()`: one block per cue, blocks joined by `"\n"`. -/
def generateSRTContent (cues : List Cue) : Str :=
  joinSep ['\n'] (cues.map cueBlock)

/-- The canonical timestamp shape `HH:MM:SS,mmm` (comma separator), as the
backend model regex `/^\d{2}:\d{2}:\d{2},\d{3}$/` checks it. -/
def isCanonicalTime : Str → Bool
  | [h1, h2, c1, m1, m2, c2, s1, s2, c3, d1, d2, d3] =>
      isDigit h1 ∧ isDigit h2 ∧ c1 = ':' ∧ isDigit m1 ∧ isDigit m2 ∧ c2 = ':' ∧
        isDigit s1 ∧ isDigit s2 ∧ c3 = ',' ∧ isDigit d1 ∧ isDigit d2 ∧ isDigit d3
  | _ => false

/-- Total milliseconds denoted by a canonical `HH:MM:SS,mmm` string
(a `Nat`-valued helper for stating evaluations of `timeToSeconds`). -/
def canonMs : Str → Nat
  | [h1, h2, _, m1, m2, _, s1, s2, _, d1, d2, d3] =>
      (digitsToNat [h1, h2] * 3600 + digitsToNat [m1, m2] * 60 +
        digitsToNat [s1, s2]) * 1000 + digitsToNat [d1, d2, d3]
  | _ => 0

/-- The edit-form timestamp regex `/^\d{2}:\d{2}:\d{2}[,.]\d{3}$/` (comma or
dot separator). -/
def isLooseTime : Str → Bool
  | [h1, h2, c1, m1, m2, c2, s1, s2, c3, d1, d2, d3] =>
      isDigit h1 ∧ isDigit h2 ∧ c1 = ':' ∧ isDigit m1 ∧ isDigit m2 ∧ c2 = ':' ∧
        isDigit s1 ∧ isDigit s2 ∧ (c3 = ',' ∨ c3 = '.') ∧
        isDigit d1 ∧ isDigit d2 ∧ isDigit d3
  | _ => false

/-- The number a timestamp string denotes.  Every theorem below that uses it
does so under a canonical-timestamp hypothesis, where `timeToSeconds`
succeeds; the `getD 0` default never surfaces (in JS a malformed string
would flow as NaN, which `ℚ` cannot represent). -/
def secOf (s : Str) : ℚ := (timeToSeconds s).getD 0

/-- The active-subtitle computation
`srtData.findIndex(s => currentTime >= start && currentTime <= end)`:
index of the first cue whose closed interval contains `t`, `-1` if none. -/
def findActiveIndex (cues : List Cue) (t : ℚ) : Int :=
  match cues.findIdx? (fun c => decide (secOf c.start ≤ t ∧ t ≤ secOf c.end_)) with
  | some i => (i : Int)
  | none => -1

/-- The containment test of the active-subtitle scan:
`currentTime >= startTime && currentTime <= endTime`. -/
def cueContains (c : Cue) (t : ℚ) : Prop :=
  secOf c.start ≤ t ∧ t ≤ secOf c.end_

instance (c : Cue) (t : ℚ) : Decidable (cueContains c t) :=
  inferInstanceAs (Decidable (secOf c.start ≤ t ∧ t ≤ secOf c.end_))

/-- First loop of `getTimeConstraints`: for every index `i < subtitleIndex`,
`minTime = Math.max(minTime, timeToSeconds(srtData[i].end) + 0.1)`. -/
def minConstraintAux (subtitleIndex : Nat) : Nat → List Cue → ℚ → ℚ
  | _, [], acc => acc
  | i, c :: rest, acc =>
      minConstraintAux subtitleIndex (i + 1) rest
        (if i < subtitleIndex then max acc (secOf c.end_ + 1/10) else acc)

/-- Second loop of `getTimeConstraints`: for every index `i > subtitleIndex`,
`maxTime = Math.min(maxTime, timeToSeconds(srtData[i].start) - 0.1)`. -/
def maxConstraintAux (subtitleIndex : Nat) : Nat → List Cue → ℚ → ℚ
  | _, [], acc => acc
  | i, c :: rest, acc =>
      maxConstraintAux subtitleIndex (i + 1) rest
        (if subtitleIndex < i then min acc (secOf c.start - 1/10) else acc)

/-- `getTimeConstraints(subtitleIndex)` over the cue list and the media
duration (`videoRef.current?.duration || 0` at the call site): `minTime`
starts at `0`, `maxTime` at the duration. -/
def getTimeConstraints (subtitleIndex : Nat) (cues : List Cue) (videoDuration : ℚ) : ℚ × ℚ :=
  (minConstraintAux subtitleIndex 0 cues 0,
   maxConstraintAux subtitleIndex 0 cues videoDuration)

/-- The edge being dragged (`dragInfo.edge`, the strings `"start"`/`"end"`). -/
inductive DragEdge
  | startEdge
  | endEdge
deriving DecidableEq

/-- `handleSubtitleDrag`: clamp the mouse time against `getTimeConstraints`
and the cue's own opposite edge at a 0.1 s gap, store the clamped time back
through `secondsToSRTTime`.  An out-of-range `dragInfo.subtitleIndex` (which
the UI never produces, and every theorem below excludes) leaves the list
unchanged, where JS would fault reading `undefined.end`. -/
def handleSubtitleDrag (cues : List Cue) (dragIndex : Nat) (edge : DragEdge)
    (mouseTime videoDuration : ℚ) : List Cue :=
  let constraints := getTimeConstraints dragIndex cues videoDuration
  match cues.get? dragIndex with
  | none => cues
  | some subtitle =>
      match edge with
      | .startEdge =>
          let currentEndTime := secOf subtitle.end_
          let newStartTime := max constraints.1 (min mouseTime (currentEndTime - 1/10))
          cues.set dragIndex { subtitle with start := secondsToSRTTime newStartTime }
      | .endEdge =>
          let currentStartTime := secOf subtitle.start
          let newEndTime := min constraints.2 (max mouseTime (currentStartTime + 1/10))
          cues.set dragIndex { subtitle with end_ := secondsToSRTTime newEndTime }

/-- The manual edit form `{ start, end, text }`. -/
structure EditForm where
  start : Str
  end_ : Str
  text : Str
deriving DecidableEq

/-- `validateSubtitleForm()`: all three fields non-empty (the text after
trimming), both timestamps matching `/^\d{2}:\d{2}:\d{2}[,.]\d{3}$/`.
No other check is performed. -/
def validateSubtitleForm (f : EditForm) : Bool :=
  if f.start = [] ∨ f.end_ = [] ∨ trim f.text = [] then false
  else if ¬ isLooseTime f.start ∨ ¬ isLooseTime f.end_ then false
  else true

/-- `handleSaveChanges()`: reject when nothing is selected or validation
fails (list unchanged), else overwrite the selected cue's `start`, `end`
and trimmed `text` from the form. -/
def handleSaveChanges (cues : List Cue) (selectedSubtitleIndex : Int) (f : EditForm) :
    List Cue :=
  if selectedSubtitleIndex = -1 then cues
  else if ¬ validateSubtitleForm f then cues
  else
    match cues.get? selectedSubtitleIndex.toNat with
    | none => cues
    | some old =>
        cues.set selectedSubtitleIndex.toNat
          { old with start := f.start, end_ := f.end_, text := trim f.text }

/-- One row of the `srts` table. -/
structure SrtRow where
  id : Nat
  filename : Str
  edited_by : Option Str
  updated_at : Nat
deriving DecidableEq

/-- One row of the `subtitles` table.  The primary key is the
auto-incremented `id`; `(srt_id, sequence_number)` only carries a unique
index. -/
structure SubRow where
  id : Nat
  sequence_number : Int
  srt_id : Nat
  start_time : Str
  end_time : Str
  text : Str
deriving DecidableEq

/-- The database state: both tables plus the auto-increment counters. -/
structure DB where
  srts : List SrtRow
  subs : List SubRow
  nextSrtId : Nat
  nextSubId : Nat
deriving DecidableEq

/-- One subtitle of a `saveSubtitles` request body. -/
structure SubPayload where
  sequence_number : Int
  start_time : Str
  end_time : Str
  text : Str
deriving DecidableEq

/-- A `saveSubtitles` request body.  `filename = []` models a missing or
empty (falsy) filename; `subtitles = none` a missing or non-array field. -/
structure SaveReq where
  filename : Str
  subtitles : Option (List SubPayload)
  edited_by : Option Str
deriving DecidableEq

/-- Outcome of `saveSubtitles`: HTTP 201, or the three rollback classes
(400 input validation, 400 Sequelize model validation, 500 on the unique
`(srt_id, sequence_number)` index). -/
inductive SaveStatus
  | created
  | badRequest
  | validationError
  | serverError
deriving DecidableEq

/-- The Sequelize `Subtitle` model validations: `sequence_number ≥ 1`,
both timestamps matching `/^\d{2}:\d{2}:\d{2},\d{3}$/`, `text` not empty
(Sequelize `notEmpty` rejects whitespace-only strings). -/
def validSubPayload (p : SubPayload) : Bool :=
  1 ≤ p.sequence_number ∧ isCanonicalTime p.start_time ∧
    isCanonicalTime p.end_time ∧ trim p.text ≠ []

/-- The rows `bulkCreate` inserts for payload `subs` under `srt_id = sid`,
ids drawn from the auto-increment counter `firstId`. -/
def savedRows (sid firstId : Nat) (subs : List SubPayload) : List SubRow :=
  subs.enum.map (fun p =>
    ⟨firstId + p.1, p.2.sequence_number, sid, p.2.start_time, p.2.end_time, p.2.text⟩)

/-- `subtitleController.saveSubtitles` over the database state.  The whole
body runs in one transaction: every error path answers with the original
state (rollback), the success path commits `findOrCreate`/metadata update,
`destroy` of the file's subtitles and `bulkCreate` of the payload at once. -/
def saveSubtitles (db : DB) (req : SaveReq) (now : Nat) : DB × SaveStatus :=
  match req.subtitles with
  | none => (db, .badRequest)
  | some subs =>
      if req.filename = [] then (db, .badRequest)
      else if subs.length = 0 then (db, .badRequest)
      else if subs.any (fun s => s.sequence_number = 0 ∨ s.start_time = [] ∨
          s.end_time = [] ∨ s.text = []) then (db, .badRequest)
      else
        -- Srt.findOrCreate({ where: { filename } }) plus the metadata update
        let found := db.srts.find? (fun s => s.filename = req.filename)
        let sid := match found with
          | some s => s.id
          | none => db.nextSrtId
        let srts1 := match found with
          | some s => db.srts.map (fun r =>
              if r.id = s.id then { r with edited_by := req.edited_by, updated_at := now }
              else r)
          | none => db.srts ++ [⟨db.nextSrtId, req.filename, req.edited_by, now⟩]
        let nextSrtId1 := match found with
          | some _ => db.nextSrtId
          | none => db.nextSrtId + 1
        -- Subtitle.destroy({ where: { srt_id: srt.id } })
        let subs1 := db.subs.filter (fun r => r.srt_id ≠ sid)
        -- Subtitle.bulkCreate: model validation, then the unique index
        if subs.all validSubPayload then
          if (subs.map (fun s => s.sequence_number)).Nodup then
            (⟨srts1, subs1 ++ savedRows sid db.nextSubId subs, nextSrtId1,
              db.nextSubId + subs.length⟩, .created)
          else (db, .serverError)
        else (db, .validationError)

/-- Outcome of `deleteSubtitle`: HTTP 200, 400 or 404. -/
inductive DelStatus
  | ok
  | badRequest
  | notFound
deriving DecidableEq

/-- `subtitleController.deleteSubtitle(sequence_number, edited_by)`:
`Subtitle.findByPk(sequence_number)` looks the row up by the table's primary
key, which is the auto-incremented `id`, not `sequence_number`; then the
found row is destroyed and its file's metadata updated. -/
def deleteSubtitle (db : DB) (sequence_number : Int) (edited_by : Option Str)
    (now : Nat) : DB × DelStatus :=
  if sequence_number = 0 then (db, .badRequest)
  else
    match db.subs.find? (fun r => (r.id : Int) = sequence_number) with
    | none => (db, .notFound)
    | some row =>
        ({ db with
            subs := db.subs.filter (fun r => r.id ≠ row.id),
            srts := db.srts.map (fun s =>
              if s.id = row.srt_id then { s with edited_by := edited_by, updated_at := now }
              else s) }, .ok)

/-- A subtitle object as the `useSrt` hook stores it locally.
`fetchSubtitles` builds `{ sequence_number, srt_id, start, end, text }`;
no code path ever sets a `sequence` property, so reading `subtitle.sequence`
yields `undefined`, modelled as `none`. -/
structure LocalCue where
  sequence_number : Int
  sequence : Option Int
  start : Str
  end_ : Str
  text : Str
deriving DecidableEq

instance : Inhabited LocalCue := ⟨⟨0, none, [], [], []⟩⟩

/-- The optimistic update of the hook's `deleteSubtitle`:
`prevArray.filter(subtitle => subtitle.sequence !== sequenceNumber)`. -/
def deleteSubtitleOptimistic (subs : List LocalCue) (sequenceNumber : Int) :
    List LocalCue :=
  subs.filter (fun s => s.sequence ≠ some sequenceNumber)

/-- The hook's `deleteSubtitle` flow: the optimistic list is installed before
the server call resolves; the pair is (optimistic list, final list), the
final list being the optimistic one on success and the stored original on
failure. -/
def deleteSubtitleFlow (subs : List LocalCue) (sequenceNumber : Int)
    (serverOk : Bool) : List LocalCue × List LocalCue :=
  let optimistic := deleteSubtitleOptimistic subs sequenceNumber
  (optimistic, if serverOk then optimistic else subs)

/-- The well-formedness of a cue under which the serialize/parse round trip
is exact: positive sequence number, canonical timestamps, and text that is
non-empty, free of line breaks (LF and CR) and equal to its own trim. -/
def goodCue (c : Cue) : Prop :=
  1 ≤ c.id ∧ isCanonicalTime c.start = true ∧ isCanonicalTime c.end_ = true ∧
    c.text ≠ [] ∧ (∀ ch ∈ c.text, ch ≠ '\n' ∧ ch ≠ '\r') ∧ trim c.text = c.text

instance (c : Cue) : Decidable (goodCue c) :=
  inferInstanceAs (Decidable (_ ∧ _ ∧ _ ∧ _ ∧ _ ∧ _))

/-- A rational lying on the millisecond grid (an integer number of
milliseconds); parsed canonical timestamps and the 0.1 s gap live here. -/
def msGrid (q : ℚ) : Prop := ∃ k : ℤ, q = (k : ℚ) / 1000

/-! ### Concrete fixtures used by counterexamples and witnesses -/

/-- A database holding one file and one cue whose row id (1) differs from its
sequence number (5). -/
def dbC4 : DB :=
  ⟨[⟨1, "movie.srt".data, none, 0⟩],
   [⟨1, 5, 1, "00:00:01,000".data, "00:00:02,000".data, "hi".data⟩], 2, 2⟩

/-- A local subtitle list as `fetchSubtitles` builds it: `sequence_number`
is set, no `sequence` property exists. -/
def subsC10 : List LocalCue :=
  [⟨3, none, "00:00:01,000".data, "00:00:02,000".data, "hi".data⟩]

/-- An edit form whose timestamps are well-formed but out of order
(end 1 s < start 5 s). -/
def formC6 : EditForm := ⟨"00:00:05,000".data, "00:00:01,000".data, "x".data⟩

/-- A one-cue list for the edit-form counterexample. -/
def cuesC6 : List Cue := [⟨1, "00:00:01,000".data, "00:00:02,000".data, "hi".data⟩]

/-- Three cues whose ends are not ordered: the first ends at 10 s, the second
(the nearest cue preceding index 2) at 2 s. -/
def cuesC7 : List Cue :=
  [⟨1, "00:00:00,000".data, "00:00:10,000".data, "a".data⟩,
   ⟨2, "00:00:01,000".data, "00:00:02,000".data, "b".data⟩,
   ⟨3, "00:00:03,000".data, "00:00:04,000".data, "c".data⟩]

/-- Two cues 150 ms apart: the drag floor of cue 1's start
(previous end 1 s + 0.1 s) equals its own end (1.2 s) minus 0.1 s. -/
def cuesC2 : List Cue :=
  [⟨1, "00:00:00,000".data, "00:00:01,000".data, "a".data⟩,
   ⟨2, "00:00:01,150".data, "00:00:01,200".data, "b".data⟩]

/-- A save-all request whose single subtitle passes every validation. -/
def reqC3 : SaveReq :=
  ⟨"movie.srt".data,
   some [⟨1, "00:00:01,000".data, "00:00:02,000".data, "hi".data⟩],
   some "u1".data⟩

/-- A single cue in canonical form except that its text starts with a
space; `parseSRT` trims the text, breaking the round trip. -/
def cuesC1 : List Cue := [⟨1, "00:00:01,000".data, "00:00:02,000".data, " x".data⟩]

/-- A two-cue list with canonical timestamps and trimmed texts, used to
instantiate the round-trip theorem. -/
def cuesC1w : List Cue :=
  [⟨1, "00:00:01,000".data, "00:00:02,500".data, "hello there".data⟩,
   ⟨2, "00:01:03,250".data, "00:01:04,000".data, "bye".data⟩]

/-! ### Character and digit-string lemmas -/

theorem isDigit_ne {c d : Char} (hc : isDigit c = true) (hd : isDigit d = false) :
    c ≠ d := by
  rintro rfl; rw [hc] at hd; cases hd

theorem isWS_eq_false_of_isDigit {c : Char} (h : isDigit c = true) :
    isWS c = false := by
  unfold isWS
  simp only [decide_eq_false_iff_not]
  rintro (rfl | rfl | rfl | rfl | rfl | rfl | rfl) <;> exact absurd h (by decide)

theorem digitsToNat_zeroCons (s : Str) : digitsToNat ('0' :: s) = digitsToNat s := rfl

theorem digitsToNat_padStart0 (n : Nat) (s : Str) :
    digitsToNat (padStart n '0' s) = digitsToNat s := by
  unfold padStart
  generalize n - s.length = k
  induction k with
  | zero => simp
  | succ k ih => simpa [List.replicate_succ, digitsToNat_zeroCons] using ih

theorem digitsToNat_snoc (s : Str) (c : Char) :
    digitsToNat (s ++ [c]) = digitsToNat s * 10 + (c.toNat - 48) := by
  unfold digitsToNat
  rw [List.foldl_append]
  rfl

theorem digitChar_spec : ∀ n, n < 10 →
    isDigit (Nat.digitChar n) = true ∧ (Nat.digitChar n).toNat = 48 + n := by
  decide

theorem natToStrAux_spec : ∀ fuel n, n < fuel →
    (natToStrAux fuel n).all isDigit = true ∧ natToStrAux fuel n ≠ [] ∧
      digitsToNat (natToStrAux fuel n) = n := by
  intro fuel
  induction fuel with
  | zero => intro n h; omega
  | succ f ih =>
      intro n h
      by_cases h10 : n < 10
      · obtain ⟨hd, ht⟩ := digitChar_spec n h10
        refine ⟨?_, ?_, ?_⟩ <;> simp [natToStrAux, h10, hd, digitsToNat, ht]
      · have hdiv : n / 10 < f := by
          have h1 : n / 10 < n := Nat.div_lt_self (by omega) (by omega)
          omega
        obtain ⟨ha, hne, hv⟩ := ih (n / 10) hdiv
        obtain ⟨hd, ht⟩ := digitChar_spec (n % 10) (Nat.mod_lt _ (by omega))
        refine ⟨?_, ?_, ?_⟩
        · simp [natToStrAux, h10, List.all_append, ha, hd]
        · simp [natToStrAux, h10]
        · simp only [natToStrAux, h10, if_false]
          rw [digitsToNat_snoc, hv, ht]
          omega

theorem natToStr_all (n : Nat) : (natToStr n).all isDigit = true :=
  (natToStrAux_spec (n + 1) n (by omega)).1

theorem natToStr_ne_nil (n : Nat) : natToStr n ≠ [] :=
  (natToStrAux_spec (n + 1) n (by omega)).2.1

theorem digitsToNat_natToStr (n : Nat) : digitsToNat (natToStr n) = n :=
  (natToStrAux_spec (n + 1) n (by omega)).2.2

theorem takeWhile_of_all {p : Char → Bool} :
    ∀ s : Str, s.all p = true → s.takeWhile p = s := by
  intro s h
  induction s with
  | nil => rfl
  | cons c r ih =>
      simp only [List.all_cons, Bool.and_eq_true] at h
      simp [List.takeWhile_cons, h.1, ih h.2]

theorem foldl_digitVal {l : Str} (h : l.all isDigit = true) :
    ∀ a : Nat, l.foldl (fun a c => a * 10 + digitVal c) a =
      l.foldl (fun a c => a * 10 + (c.toNat - 48)) a := by
  induction l with
  | nil => intro a; rfl
  | cons c r ih =>
      intro a
      simp only [List.all_cons, Bool.and_eq_true] at h
      simp only [List.foldl_cons]
      rw [show digitVal c = c.toNat - 48 from by unfold digitVal; rw [if_pos h.1]]
      exact ih h.2 _

theorem jsParseInt_digits (s : Str) (hne : s ≠ []) (hall : s.all isDigit = true) :
    jsParseInt s = some ((digitsToNat s : ℕ) : ℤ) := by
  obtain ⟨c, r, rfl⟩ : ∃ c r, s = c :: r := by
    cases s with
    | nil => exact absurd rfl hne
    | cons c r => exact ⟨c, r, rfl⟩
  simp only [List.all_cons, Bool.and_eq_true] at hall
  obtain ⟨hc, hr⟩ := hall
  have hws : isWS c = false := isWS_eq_false_of_isDigit hc
  have hminus : (c = '-') = False := eq_false (isDigit_ne hc (by decide))
  have hplus : (c = '+') = False := eq_false (isDigit_ne hc (by decide))
  have hx : (r.headD ' ' = 'x') = False := by
    cases r with
    | nil => simp
    | cons d r' =>
        simp only [List.all_cons, Bool.and_eq_true] at hr
        simp only [List.headD_cons]
        exact eq_false (isDigit_ne hr.1 (by decide))
  have hX : (r.headD ' ' = 'X') = False := by
    cases r with
    | nil => simp
    | cons d r' =>
        simp only [List.all_cons, Bool.and_eq_true] at hr
        simp only [List.headD_cons]
        exact eq_false (isDigit_ne hr.1 (by decide))
  unfold jsParseInt
  simp only [List.dropWhile_cons, hws, Bool.false_eq_true, if_false, List.headD_cons,
    hminus, hplus, or_self, decide_False, Bool.false_eq_true, if_false,
    List.drop_succ_cons, List.drop_zero, hx, hX, or_self, and_false]
  rw [takeWhile_of_all (c :: r) (by simp [List.all_cons, hc, hr])]
  rw [if_neg (by simp)]
  have hval := foldl_digitVal (l := c :: r) (by simp [List.all_cons, hc, hr]) 0
  simp only [hval]
  rfl

/-! ### Split lemmas -/

theorem splitOnP_of_none {p : Char → Bool} :
    ∀ s : Str, (∀ c ∈ s, p c = false) → splitOnP p s = [s] := by
  intro s h
  induction s with
  | nil => rfl
  | cons c r ih =>
      have hr := ih (fun d hd => h d (List.mem_cons_of_mem _ hd))
      simp only [splitOnP, hr, h c (List.mem_cons_self _ _), Bool.false_eq_true, if_false]

theorem splitOnP_ne_nil {p : Char → Bool} : ∀ s : Str, splitOnP p s ≠ [] := by
  intro s
  cases s with
  | nil => simp [splitOnP]
  | cons c r =>
      rcases hs : splitOnP p r with _ | ⟨l, ls⟩
      · simp [splitOnP, hs]
      · by_cases hp : p c = true <;> simp [splitOnP, hs, hp]

theorem splitOnP_append_sep {p : Char → Bool} (sep : Char) (hsep : p sep = true) :
    ∀ (a b : Str), (∀ c ∈ a, p c = false) →
      splitOnP p (a ++ sep :: b) = a :: splitOnP p b := by
  intro a
  induction a with
  | nil =>
      intro b _
      rcases hs : splitOnP p b with _ | ⟨l, ls⟩
      · exact absurd hs (splitOnP_ne_nil b)
      · simp [splitOnP, hs, hsep]
  | cons c a' ih =>
      intro b h
      have hc := h c (List.mem_cons_self _ _)
      have ha' := ih b (fun d hd => h d (List.mem_cons_of_mem _ hd))
      simp only [List.cons_append, splitOnP, List.append_eq, ha', hc,
        Bool.false_eq_true, if_false]

/-! ### Canonical-timestamp evaluation -/

theorem timeToSeconds_canon (s : Str) (h : isCanonicalTime s = true) :
    timeToSeconds s = some ((canonMs s : ℚ) / 1000) := by
  unfold isCanonicalTime at h
  split at h
  case h_2 => cases h
  case h_1 h1 h2 c1 m1 m2 c2 s1 s2 c3 d1 d2 d3 =>
    simp only [decide_eq_true_eq] at h
    obtain ⟨hh1, hh2, rfl, hm1, hm2, rfl, hs1, hs2, rfl, hd1, hd2, hd3⟩ := h
    have hsepP : (fun c => decide (c = ',' ∨ c = '.')) ',' = true := by decide
    have hnotsep : ∀ c, isDigit c = true → (decide (c = ',' ∨ c = '.')) = false := by
      intro c hc
      simp only [decide_eq_false_iff_not]
      rintro (rfl | rfl) <;> exact absurd hc (by decide)
    have hA : ∀ c ∈ [h1, h2, ':', m1, m2, ':', s1, s2],
        (fun c => decide (c = ',' ∨ c = '.')) c = false := by
      intro c hc
      simp only [List.mem_cons, List.not_mem_nil, or_false] at hc
      rcases hc with rfl | rfl | rfl | rfl | rfl | rfl | rfl | rfl
      · exact hnotsep _ hh1
      · exact hnotsep _ hh2
      · decide
      · exact hnotsep _ hm1
      · exact hnotsep _ hm2
      · decide
      · exact hnotsep _ hs1
      · exact hnotsep _ hs2
    have hB : ∀ c ∈ [d1, d2, d3], (fun c => decide (c = ',' ∨ c = '.')) c = false := by
      intro c hc
      simp only [List.mem_cons, List.not_mem_nil, or_false] at hc
      rcases hc with rfl | rfl | rfl
      · exact hnotsep _ hd1
      · exact hnotsep _ hd2
      · exact hnotsep _ hd3
    have hsplit : splitOnP (fun c => decide (c = ',' ∨ c = '.'))
        [h1, h2, ':', m1, m2, ':', s1, s2, ',', d1, d2, d3] =
        [[h1, h2, ':', m1, m2, ':', s1, s2], [d1, d2, d3]] := by
      have e0 := splitOnP_append_sep (p := fun c => decide (c = ',' ∨ c = '.')) ','
        hsepP [h1, h2, ':', m1, m2, ':', s1, s2] [d1, d2, d3] hA
      rw [splitOnP_of_none _ hB] at e0
      simpa only [List.cons_append, List.nil_append] using e0
    have hcolon : ∀ (x y : Char), isDigit x = true → isDigit y = true →
        ∀ c ∈ [x, y], (fun c => decide (c = ':')) c = false := by
      intro x y hx hy c hc
      simp only [List.mem_cons, List.not_mem_nil, or_false] at hc
      rcases hc with rfl | rfl
      · simpa using isDigit_ne hx (d := ':') (by decide)
      · simpa using isDigit_ne hy (d := ':') (by decide)
    have hsplit2 : splitOnChar ':' [h1, h2, ':', m1, m2, ':', s1, s2] =
        [[h1, h2], [m1, m2], [s1, s2]] := by
      unfold splitOnChar
      have e1 := splitOnP_append_sep (p := fun c => decide (c = ':')) ':' (by decide)
        [h1, h2] ([m1, m2] ++ ':' :: [s1, s2]) (hcolon _ _ hh1 hh2)
      have e2 := splitOnP_append_sep (p := fun c => decide (c = ':')) ':' (by decide)
        [m1, m2] [s1, s2] (hcolon _ _ hm1 hm2)
      have e3 := splitOnP_of_none (p := fun c => decide (c = ':')) [s1, s2]
        (hcolon _ _ hs1 hs2)
      rw [e2, e3] at e1
      simpa only [List.cons_append, List.nil_append] using e1
    have hnum : ∀ (x y : Char), isDigit x = true → isDigit y = true →
        jsNumberDigits [x, y] = some (digitsToNat [x, y]) := by
      intro x y hx hy
      unfold jsNumberDigits
      rw [if_pos (by simp [List.all_cons, hx, hy])]
    unfold timeToSeconds
    rw [if_neg (by simp)]
    simp only [hsplit, List.headD_cons, List.drop_succ_cons, List.drop_zero,
      List.head?_cons, hsplit2, hnum _ _ hh1 hh2, hnum _ _ hm1 hm2, hnum _ _ hs1 hs2,
      jsParseInt_digits [d1, d2, d3] (by simp) (by simp [List.all_cons, hd1, hd2, hd3]),
      List.cons_ne_nil, if_false, canonMs]
    congr 1
    push_cast
    ring

theorem secOf_canon (s : Str) (h : isCanonicalTime s = true) :
    secOf s = (canonMs s : ℚ) / 1000 := by
  simp [secOf, timeToSeconds_canon s h]

/-! ### Constraint-loop characterization -/

theorem minConstraintAux_eq (k : Nat) :
    ∀ (l : List Cue) (i : Nat) (acc : ℚ),
      minConstraintAux k i l acc =
        (l.take (k - i)).foldl (fun a c => max a (secOf c.end_ + 1/10)) acc := by
  intro l
  induction l with
  | nil => intro i acc; simp [minConstraintAux]
  | cons c rest ih =>
      intro i acc
      by_cases h : i < k
      · have hk : k - i = (k - (i + 1)) + 1 := by omega
        simp only [minConstraintAux, if_pos h, ih, hk, List.take_succ_cons,
          List.foldl_cons]
      · have hk : k - i = 0 := by omega
        have hk' : k - (i + 1) = 0 := by omega
        simp only [minConstraintAux, if_neg h, ih, hk, hk', List.take_zero,
          List.foldl_nil]

theorem maxConstraintAux_eq (k : Nat) :
    ∀ (l : List Cue) (i : Nat) (acc : ℚ),
      maxConstraintAux k i l acc =
        (l.drop (k + 1 - i)).foldl (fun a c => min a (secOf c.start - 1/10)) acc := by
  intro l
  induction l with
  | nil => intro i acc; simp [maxConstraintAux]
  | cons c rest ih =>
      intro i acc
      by_cases h : k < i
      · have hk : k + 1 - i = 0 := by omega
        have hk' : k + 1 - (i + 1) = 0 := by omega
        simp only [maxConstraintAux, if_pos h, ih, hk, hk', List.drop_zero,
          List.foldl_cons]
      · have hk : k + 1 - i = (k - i) + 1 := by omega
        have hk' : k + 1 - (i + 1) = k - i := by omega
        simp only [maxConstraintAux, if_neg h, ih, hk, hk', List.drop_succ_cons]

theorem le_foldl_max (g : Cue → ℚ) :
    ∀ (l : List Cue) (a : ℚ), a ≤ l.foldl (fun x c => max x (g c)) a := by
  intro l
  induction l with
  | nil => intro a; simp
  | cons c rest ih =>
      intro a
      calc a ≤ max a (g c) := le_max_left _ _
        _ ≤ rest.foldl (fun x c => max x (g c)) (max a (g c)) := ih _
        _ = (c :: rest).foldl (fun x c => max x (g c)) a := by simp

theorem elem_le_foldl_max (g : Cue → ℚ) :
    ∀ (l : List Cue) (a : ℚ) (c : Cue), c ∈ l →
      g c ≤ l.foldl (fun x c => max x (g c)) a := by
  intro l
  induction l with
  | nil => intro a c hc; cases hc
  | cons d rest ih =>
      intro a c hc
      rcases List.mem_cons.1 hc with rfl | hc'
      · calc g c ≤ max a (g c) := le_max_right _ _
          _ ≤ rest.foldl (fun x e => max x (g e)) (max a (g c)) := le_foldl_max g _ _
      · exact ih _ c hc'

theorem foldl_max_grid (g : Cue → ℚ) :
    ∀ (l : List Cue) (a : ℚ), msGrid a → (∀ c ∈ l, msGrid (g c)) →
      msGrid (l.foldl (fun x c => max x (g c)) a) := by
  intro l
  induction l with
  | nil => intro a ha _; exact ha
  | cons c rest ih =>
      intro a ha hl
      refine ih _ ?_ (fun d hd => hl d (List.mem_cons_of_mem _ hd))
      show msGrid (max a (g c))
      rcases max_choice a (g c) with h | h <;> rw [h]
      · exact ha
      · exact hl c (List.mem_cons_self _ _)

/-! ### Millisecond-grid and floor lemmas -/

theorem msGrid_secOf_canon (s : Str) (h : isCanonicalTime s = true) :
    msGrid (secOf s) := by
  rw [secOf_canon s h]
  exact ⟨canonMs s, by push_cast; ring⟩

theorem msGrid_add_tenth {q : ℚ} (h : msGrid q) : msGrid (q + 1/10) := by
  obtain ⟨k, rfl⟩ := h
  exact ⟨k + 100, by push_cast; ring⟩

theorem msGrid_zero : msGrid 0 := ⟨0, by norm_num⟩

theorem floor_ms_le (x : ℚ) : (⌊1000 * x⌋ : ℚ) / 1000 ≤ x := by
  have h := Int.floor_le (1000 * x)
  linarith

theorem grid_le_floor_ms {g x : ℚ} (hg : msGrid g) (h : g ≤ x) :
    g ≤ (⌊1000 * x⌋ : ℚ) / 1000 := by
  obtain ⟨k, rfl⟩ := hg
  have h1 : (k : ℚ) ≤ 1000 * x := by linarith
  have h2 : k ≤ ⌊1000 * x⌋ := Int.le_floor.2 h1
  have h3 : (k : ℚ) ≤ (⌊1000 * x⌋ : ℚ) := by exact_mod_cast h2
  linarith

/-! ### Round-trip of the time conversions -/

theorem timeToSeconds_packed (A B C D : Str)
    (hA : A ≠ [] ∧ A.all isDigit = true) (hB : B ≠ [] ∧ B.all isDigit = true)
    (hC : C ≠ [] ∧ C.all isDigit = true) (hD : D ≠ [] ∧ D.all isDigit = true) :
    timeToSeconds (A ++ ':' :: (B ++ ':' :: (C ++ ',' :: D))) =
      some ((digitsToNat A : ℚ) * 3600 + (digitsToNat B : ℚ) * 60 +
        (digitsToNat C : ℚ) + (digitsToNat D : ℚ) / 1000) := by
  obtain ⟨hAne, hAd⟩ := hA
  obtain ⟨hBne, hBd⟩ := hB
  obtain ⟨hCne, hCd⟩ := hC
  obtain ⟨hDne, hDd⟩ := hD
  have hdig : ∀ (s : Str), s.all isDigit = true → ∀ c ∈ s,
      (fun c => decide (c = ',' ∨ c = '.')) c = false := by
    intro s hs c hc
    have h1 : isDigit c = true := by
      rw [List.all_eq_true] at hs
      exact hs c hc
    simp only [decide_eq_false_iff_not]
    rintro (rfl | rfl) <;> exact absurd h1 (by decide)
  have hdigc : ∀ (s : Str), s.all isDigit = true → ∀ c ∈ s,
      (fun c => decide (c = ':')) c = false := by
    intro s hs c hc
    have h1 : isDigit c = true := by
      rw [List.all_eq_true] at hs
      exact hs c hc
    simpa using isDigit_ne h1 (d := ':') (by decide)
  have hT : ∀ c ∈ A ++ ':' :: (B ++ ':' :: C),
      (fun c => decide (c = ',' ∨ c = '.')) c = false := by
    intro c hc
    rcases List.mem_append.1 hc with h | h
    · exact hdig A hAd c h
    · rcases List.mem_cons.1 h with rfl | h'
      · decide
      · rcases List.mem_append.1 h' with h2 | h2
        · exact hdig B hBd c h2
        · rcases List.mem_cons.1 h2 with rfl | h3
          · decide
          · exact hdig C hCd c h3
  have hsplit : splitOnP (fun c => decide (c = ',' ∨ c = '.'))
      (A ++ ':' :: (B ++ ':' :: (C ++ ',' :: D))) =
      [A ++ ':' :: (B ++ ':' :: C), D] := by
    have e0 := splitOnP_append_sep (p := fun c => decide (c = ',' ∨ c = '.')) ','
      (by decide) (A ++ ':' :: (B ++ ':' :: C)) D hT
    rw [splitOnP_of_none _ (hdig D hDd)] at e0
    simpa only [List.append_assoc, List.cons_append, List.nil_append] using e0
  have hsplit2 : splitOnChar ':' (A ++ ':' :: (B ++ ':' :: C)) = [A, B, C] := by
    unfold splitOnChar
    have e1 := splitOnP_append_sep (p := fun c => decide (c = ':')) ':' (by decide)
      A (B ++ ':' :: C) (hdigc A hAd)
    have e2 := splitOnP_append_sep (p := fun c => decide (c = ':')) ':' (by decide)
      B C (hdigc B hBd)
    have e3 := splitOnP_of_none (p := fun c => decide (c = ':')) C (hdigc C hCd)
    rw [e1, e2, e3]
  have hne : A ++ ':' :: (B ++ ':' :: (C ++ ',' :: D)) ≠ [] := by
    cases A with
    | nil => exact absurd rfl hAne
    | cons a A' => simp
  have hnum : ∀ (s : Str), s ≠ [] → s.all isDigit = true →
      jsNumberDigits s = some (digitsToNat s) := by
    intro s h1 h2
    unfold jsNumberDigits
    rw [if_pos ⟨h1, h2⟩]
  unfold timeToSeconds
  rw [if_neg hne]
  simp only [hsplit, List.headD_cons, List.drop_succ_cons, List.drop_zero,
    List.head?_cons, hsplit2, hnum A hAne hAd, hnum B hBne hBd, hnum C hCne hCd,
    jsParseInt_digits D hDne hDd]
  rw [if_neg (by simpa using hDne)]
  push_cast
  ring_nf

theorem intToStr_of_nonneg {n : ℤ} (h : 0 ≤ n) : intToStr n = natToStr n.toNat := by
  unfold intToStr
  rw [if_neg (by omega)]

theorem padStart0_spec (n m : Nat) :
    padStart n '0' (natToStr m) ≠ [] ∧ (padStart n '0' (natToStr m)).all isDigit = true ∧
      digitsToNat (padStart n '0' (natToStr m)) = m := by
  refine ⟨?_, ?_, ?_⟩
  · unfold padStart
    intro h
    exact natToStr_ne_nil m (by
      rcases List.append_eq_nil.1 h with ⟨_, h2⟩
      exact h2)
  · unfold padStart
    rw [List.all_append, Bool.and_eq_true]
    refine ⟨?_, natToStr_all m⟩
    rw [List.all_eq_true]
    intro c hc
    rw [List.eq_of_mem_replicate hc]
    decide
  · rw [digitsToNat_padStart0, digitsToNat_natToStr]

/-- The round trip of the time conversions over exact rational arithmetic:
for any non-negative time, serializing with `secondsToSRTTime` and parsing
with `timeToSeconds` yields the time truncated to the millisecond grid. -/
theorem timeToSeconds_secondsToSRTTime (t : ℚ) (ht : 0 ≤ t) :
    timeToSeconds (secondsToSRTTime t) = some ((⌊1000 * t⌋ : ℚ) / 1000) := by
  have h3600 : (0 : ℚ) ≤ t / 3600 := by positivity
  have h60 : (0 : ℚ) ≤ t / 60 := by positivity
  have hfl3600 := Int.floor_le (t / 3600)
  have hfl60 := Int.floor_le (t / 60)
  have hflt := Int.floor_le t
  have hmod3600 : jsMod t 3600 = t - 3600 * (⌊t / 3600⌋ : ℚ) := by
    unfold jsMod rtrunc
    rw [if_pos h3600]
  have hmod60 : jsMod t 60 = t - 60 * (⌊t / 60⌋ : ℚ) := by
    unfold jsMod rtrunc
    rw [if_pos h60]
  have hmod1 : jsMod t 1 = t - (⌊t⌋ : ℚ) := by
    unfold jsMod rtrunc
    rw [div_one, if_pos ht, one_mul]
  have hmin : ⌊jsMod t 3600 / 60⌋ = ⌊t / 60⌋ - 60 * ⌊t / 3600⌋ := by
    rw [hmod3600,
      show (t - 3600 * (⌊t / 3600⌋ : ℚ)) / 60 = t / 60 - ((60 * ⌊t / 3600⌋ : ℤ) : ℚ) from by
        push_cast; ring,
      Int.floor_sub_int]
  have hsec : ⌊jsMod t 60⌋ = ⌊t⌋ - 60 * ⌊t / 60⌋ := by
    rw [hmod60,
      show t - 60 * (⌊t / 60⌋ : ℚ) = t - ((60 * ⌊t / 60⌋ : ℤ) : ℚ) from by push_cast; ring,
      Int.floor_sub_int]
  have hms : ⌊jsMod t 1 * 1000⌋ = ⌊1000 * t⌋ - 1000 * ⌊t⌋ := by
    rw [hmod1,
      show (t - (⌊t⌋ : ℚ)) * 1000 = 1000 * t - ((1000 * ⌊t⌋ : ℤ) : ℚ) from by
        push_cast; ring,
      Int.floor_sub_int]
  have hH0 : 0 ≤ ⌊t / 3600⌋ := Int.floor_nonneg.2 h3600
  have hM0 : 0 ≤ ⌊t / 60⌋ - 60 * ⌊t / 3600⌋ := by
    have h1 : ((60 * ⌊t / 3600⌋ : ℤ) : ℚ) ≤ t / 60 := by push_cast; linarith
    have h2 := Int.le_floor.2 h1
    omega
  have hS0 : 0 ≤ ⌊t⌋ - 60 * ⌊t / 60⌋ := by
    have h1 : ((60 * ⌊t / 60⌋ : ℤ) : ℚ) ≤ t := by push_cast; linarith
    have h2 := Int.le_floor.2 h1
    omega
  have hMS0 : 0 ≤ ⌊1000 * t⌋ - 1000 * ⌊t⌋ := by
    have h1 : ((1000 * ⌊t⌋ : ℤ) : ℚ) ≤ 1000 * t := by push_cast; linarith
    have h2 := Int.le_floor.2 h1
    omega
  have hstr : secondsToSRTTime t =
      padStart 2 '0' (natToStr (⌊t / 3600⌋).toNat) ++ ':' ::
        (padStart 2 '0' (natToStr (⌊t / 60⌋ - 60 * ⌊t / 3600⌋).toNat) ++ ':' ::
          (padStart 2 '0' (natToStr (⌊t⌋ - 60 * ⌊t / 60⌋).toNat) ++ ',' ::
            padStart 3 '0' (natToStr (⌊1000 * t⌋ - 1000 * ⌊t⌋).toNat))) := by
    unfold secondsToSRTTime
    simp only [hmin, hsec, hms, intToStr_of_nonneg hH0, intToStr_of_nonneg hM0,
      intToStr_of_nonneg hS0, intToStr_of_nonneg hMS0]
  obtain ⟨hA1, hA2, hA3⟩ := padStart0_spec 2 (⌊t / 3600⌋).toNat
  obtain ⟨hB1, hB2, hB3⟩ := padStart0_spec 2 (⌊t / 60⌋ - 60 * ⌊t / 3600⌋).toNat
  obtain ⟨hC1, hC2, hC3⟩ := padStart0_spec 2 (⌊t⌋ - 60 * ⌊t / 60⌋).toNat
  obtain ⟨hD1, hD2, hD3⟩ := padStart0_spec 3 (⌊1000 * t⌋ - 1000 * ⌊t⌋).toNat
  rw [hstr, timeToSeconds_packed _ _ _ _ ⟨hA1, hA2⟩ ⟨hB1, hB2⟩ ⟨hC1, hC2⟩ ⟨hD1, hD2⟩,
    hA3, hB3, hC3, hD3]
  congr 1
  rw [show ((⌊t / 3600⌋.toNat : ℕ) : ℚ) = ((⌊t / 3600⌋ : ℤ) : ℚ) from by
      exact_mod_cast congrArg (fun z : ℤ => (z : ℚ)) (Int.toNat_of_nonneg hH0),
    show (((⌊t / 60⌋ - 60 * ⌊t / 3600⌋).toNat : ℕ) : ℚ) =
        ((⌊t / 60⌋ - 60 * ⌊t / 3600⌋ : ℤ) : ℚ) from by
      exact_mod_cast congrArg (fun z : ℤ => (z : ℚ)) (Int.toNat_of_nonneg hM0),
    show (((⌊t⌋ - 60 * ⌊t / 60⌋).toNat : ℕ) : ℚ) = ((⌊t⌋ - 60 * ⌊t / 60⌋ : ℤ) : ℚ) from by
      exact_mod_cast congrArg (fun z : ℤ => (z : ℚ)) (Int.toNat_of_nonneg hS0),
    show (((⌊1000 * t⌋ - 1000 * ⌊t⌋).toNat : ℕ) : ℚ) =
        ((⌊1000 * t⌋ - 1000 * ⌊t⌋ : ℤ) : ℚ) from by
      exact_mod_cast congrArg (fun z : ℤ => (z : ℚ)) (Int.toNat_of_nonneg hMS0)]
  push_cast
  field_simp
  ring

/-! ### Serialization round-trip lemmas -/

theorem canon_chars (s : Str) (h : isCanonicalTime s = true) :
    (∀ ch ∈ s, isDigit ch = true ∨ ch = ':' ∨ ch = ',') ∧ s ≠ [] ∧
      isDigit (s.headD ' ') = true ∧ isDigit (s.reverse.headD ' ') = true := by
  unfold isCanonicalTime at h
  split at h
  case h_2 => cases h
  case h_1 h1 h2 c1 m1 m2 c2 s1 s2 c3 d1 d2 d3 =>
    simp only [decide_eq_true_eq] at h
    obtain ⟨hh1, hh2, rfl, hm1, hm2, rfl, hs1, hs2, rfl, hd1, hd2, hd3⟩ := h
    refine ⟨?_, by simp, by simpa using hh1, by simpa using hd3⟩
    intro ch hch
    simp only [List.mem_cons, List.not_mem_nil, or_false] at hch
    rcases hch with rfl | rfl | rfl | rfl | rfl | rfl | rfl | rfl | rfl | rfl | rfl | rfl
    · exact Or.inl hh1
    · exact Or.inl hh2
    · exact Or.inr (Or.inl rfl)
    · exact Or.inl hm1
    · exact Or.inl hm2
    · exact Or.inr (Or.inl rfl)
    · exact Or.inl hs1
    · exact Or.inl hs2
    · exact Or.inr (Or.inr rfl)
    · exact Or.inl hd1
    · exact Or.inl hd2
    · exact Or.inl hd3

theorem tchar_props {ch : Char} (h : isDigit ch = true ∨ ch = ':' ∨ ch = ',') :
    ch ≠ '\n' ∧ ch ≠ '\r' ∧ isWS ch = false ∧ ch ≠ '.' := by
  rcases h with h | rfl | rfl
  · exact ⟨isDigit_ne h (by decide), isDigit_ne h (by decide),
      isWS_eq_false_of_isDigit h, isDigit_ne h (by decide)⟩
  · exact ⟨by decide, by decide, by decide, by decide⟩
  · exact ⟨by decide, by decide, by decide, by decide⟩

theorem arrow_char_props {ch : Char} (h : ch ∈ arrowSep) : ch ≠ '\n' ∧ ch ≠ '\r' := by
  unfold arrowSep at h
  simp only [List.mem_cons, List.not_mem_nil, or_false] at h
  rcases h with rfl | rfl | rfl | rfl | rfl <;> exact ⟨by decide, by decide⟩

theorem natToStr_char_props {n : Nat} {ch : Char} (h : ch ∈ natToStr n) :
    ch ≠ '\n' ∧ ch ≠ '\r' ∧ isWS ch = false := by
  have hd : isDigit ch = true := by
    have := natToStr_all n
    rw [List.all_eq_true] at this
    exact this ch h
  exact ⟨isDigit_ne hd (by decide), isDigit_ne hd (by decide),
    isWS_eq_false_of_isDigit hd⟩

theorem stripCRLF_id (s : Str) (h : ∀ ch ∈ s, ch ≠ '\r') : stripCRLF s = s := by
  induction s using stripCRLF.induct with
  | case1 rest ih =>
      exact absurd rfl (h '\r' (List.mem_cons_self _ _))
  | case2 c rest hne ih =>
      rw [stripCRLF]
      · rw [ih (fun ch hch => h ch (List.mem_cons_of_mem _ hch))]
      · exact hne
  | case3 => rfl

theorem crToLF_id (s : Str) (h : ∀ ch ∈ s, ch ≠ '\r') : crToLF s = s := by
  unfold crToLF
  induction s with
  | nil => rfl
  | cons c r ih =>
      simp only [List.map_cons, List.cons.injEq]
      refine ⟨?_, ih (fun ch hch => h ch (List.mem_cons_of_mem _ hch))⟩
      rw [if_neg (h c (List.mem_cons_self _ _))]

theorem headD_append_left {a b : Str} {d : Char} (h : a ≠ []) :
    (a ++ b).headD d = a.headD d := by
  cases a with
  | nil => exact absurd rfl h
  | cons c r => rfl

theorem revhead_append {a b : Str} {d : Char} (h : b ≠ []) :
    ((a ++ b).reverse).headD d = (b.reverse).headD d := by
  rw [List.reverse_append]
  exact headD_append_left (by simpa)

theorem trimLeft_eq_self {s : Str} (h : s = [] ∨ isWS (s.headD ' ') = false) :
    trimLeft s = s := by
  rcases h with rfl | h
  · rfl
  · cases s with
    | nil => rfl
    | cons c r =>
        unfold trimLeft
        rw [List.dropWhile_cons, if_neg (by simp_all)]

theorem trimRight_eq_self {s : Str} (h : s = [] ∨ isWS (s.reverse.headD ' ') = false) :
    trimRight s = s := by
  unfold trimRight
  rcases h with rfl | h
  · rfl
  · have hdw : s.reverse.dropWhile isWS = s.reverse := by
      cases hs : s.reverse with
      | nil => rfl
      | cons c r =>
          rw [hs] at h
          simp only [List.headD_cons] at h
          rw [List.dropWhile_cons, if_neg (by simp [h])]
    rw [hdw, List.reverse_reverse]

theorem trim_eq_self {s : Str} (hh : s = [] ∨ isWS (s.headD ' ') = false)
    (hl : s = [] ∨ isWS (s.reverse.headD ' ') = false) : trim s = s := by
  unfold trim
  rw [trimLeft_eq_self hh, trimRight_eq_self hl]

theorem dwLen (p : Char → Bool) : ∀ s : Str, (s.dropWhile p).length ≤ s.length := by
  intro s
  induction s with
  | nil => simp
  | cons c r ih =>
      rw [List.dropWhile_cons]
      by_cases hp : p c = true
      · rw [if_pos hp]
        simp only [List.length_cons]
        omega
      · rw [if_neg hp]

theorem dropWhile_length_eq {p : Char → Bool} {s : Str}
    (h : (s.dropWhile p).length = s.length) : s.dropWhile p = s := by
  cases s with
  | nil => rfl
  | cons c r =>
      rw [List.dropWhile_cons]
      rw [List.dropWhile_cons] at h
      by_cases hp : p c = true
      · rw [if_pos hp] at h
        have := dwLen p r
        simp at h
        omega
      · rw [if_neg hp]

theorem trim_self_bounds {s : Str} (hne : s ≠ []) (h : trim s = s) :
    isWS (s.headD ' ') = false ∧ isWS (s.reverse.headD ' ') = false := by
  have hlen1 : (trimLeft s).length ≤ s.length := dwLen _ _
  have hlen2 : ∀ x : Str, (trimRight x).length ≤ x.length := by
    intro x
    unfold trimRight
    calc ((x.reverse.dropWhile isWS).reverse).length
        = (x.reverse.dropWhile isWS).length := List.length_reverse _
      _ ≤ x.reverse.length := dwLen _ _
      _ = x.length := List.length_reverse _
  have hTL : trimLeft s = s := by
    have h1 : s.length ≤ (trimLeft s).length := by
      conv_lhs => rw [← h]
      exact hlen2 (trimLeft s)
    exact dropWhile_length_eq (Nat.le_antisymm hlen1 h1)
  have hTR : trimRight s = s := by
    unfold trim at h
    rw [hTL] at h
    exact h
  constructor
  · cases s with
    | nil => exact absurd rfl hne
    | cons c r =>
        by_cases hws : isWS c = true
        · exfalso
          have : trimLeft (c :: r) = r.dropWhile isWS := by
            unfold trimLeft
            rw [List.dropWhile_cons, if_pos hws]
          rw [this] at hTL
          have := congrArg List.length hTL
          have hd := dwLen isWS r
          simp at this
          omega
        · simpa using hws
  · cases hs : s.reverse with
    | nil => exact absurd (by simpa using congrArg List.reverse hs) hne
    | cons c r =>
        by_cases hws : isWS c = true
        · exfalso
          have : trimRight s = (r.dropWhile isWS).reverse := by
            unfold trimRight
            rw [hs, List.dropWhile_cons, if_pos hws]
          rw [hTR] at this
          have hlen := congrArg List.length this
          have hd := dwLen isWS r
          have hsr : s.length = r.length + 1 := by
            have := congrArg List.length hs
            simpa using this
          simp at hlen
          omega
        · simp only [List.headD_cons]
          simpa using hws

/-! ### Block-scanner lemmas -/

theorem sepMatch_not_nl {c : Char} (h : c ≠ '\n') (rest : Str) :
    sepMatch (c :: rest) = none := by
  unfold sepMatch
  dsimp only
  rw [if_neg h]

theorem sepMatch_nl_nonws {d : Char} (hd : isWS d = false) (b : Str) :
    sepMatch ('\n' :: d :: b) = none := by
  unfold sepMatch
  dsimp only
  rw [if_pos rfl]
  have hrun : List.takeWhile isWS (d :: b) = [] := by
    rw [List.takeWhile_cons, hd]
    rfl
  rw [hrun]
  simp

theorem sepMatch_sep (rest : Str) (h : rest = [] ∨ isWS (rest.headD ' ') = false) :
    sepMatch ('\n' :: '\n' :: rest) = some rest := by
  unfold sepMatch
  dsimp only
  rw [if_pos rfl]
  have hrun : List.takeWhile isWS ('\n' :: rest) = ['\n'] := by
    rw [List.takeWhile_cons]
    have hnl : isWS '\n' = true := by decide
    rw [hnl]
    simp only [if_true]
    rcases h with rfl | h
    · rfl
    · cases rest with
      | nil => rfl
      | cons c r =>
          simp only [List.headD_cons] at h
          rw [List.takeWhile_cons, h]
          simp
  rw [hrun]
  simp

theorem splitAux_step_none {c : Char} {rest : Str} (h : sepMatch (c :: rest) = none)
    (fuel : Nat) (acc : Str) :
    splitBlocksAux (fuel + 1) (c :: rest) acc = splitBlocksAux fuel rest (c :: acc) := by
  simp only [splitBlocksAux, h]

theorem splitAux_step_some {c : Char} {rest rem : Str}
    (h : sepMatch (c :: rest) = some rem) (fuel : Nat) (acc : Str) :
    splitBlocksAux (fuel + 1) (c :: rest) acc =
      acc.reverse :: splitBlocksAux fuel rem [] := by
  simp only [splitBlocksAux, h]

theorem scan_noNL (a : Str) (ha : ∀ ch ∈ a, ch ≠ '\n') :
    ∀ (fuel : Nat) (rest acc : Str),
      splitBlocksAux (fuel + a.length) (a ++ rest) acc =
        splitBlocksAux fuel rest (a.reverse ++ acc) := by
  induction a with
  | nil => intro fuel rest acc; simp
  | cons c a' ih =>
      intro fuel rest acc
      have hc : c ≠ '\n' := ha c (List.mem_cons_self _ _)
      rw [show fuel + (c :: a').length = (fuel + a'.length) + 1 from by
        simp [List.length_cons]
        omega]
      rw [List.cons_append, splitAux_step_none (sepMatch_not_nl hc _)]
      rw [ih (fun ch hch => ha ch (List.mem_cons_of_mem _ hch)) fuel rest (c :: acc)]
      simp

theorem scan_nl {d : Char} (hd : isWS d = false) (b : Str) (fuel : Nat) (acc : Str) :
    splitBlocksAux (fuel + 1) ('\n' :: d :: b) acc =
      splitBlocksAux fuel (d :: b) ('\n' :: acc) :=
  splitAux_step_none (sepMatch_nl_nonws hd b) fuel acc

theorem scan_sep (rest : Str) (h : rest = [] ∨ isWS (rest.headD ' ') = false)
    (fuel : Nat) (acc : Str) :
    splitBlocksAux (fuel + 1) ('\n' :: '\n' :: rest) acc =
      acc.reverse :: splitBlocksAux fuel rest [] :=
  splitAux_step_some (sepMatch_sep rest h) fuel acc

theorem joinSep_cons2 (sep x y : Str) (r : List Str) :
    joinSep sep (x :: y :: r) = x ++ sep ++ joinSep sep (y :: r) := rfl

theorem joinSep_ne_nil {sep x : Str} {xs : List Str} (hx : x ≠ []) :
    joinSep sep (x :: xs) ≠ [] := by
  cases xs with
  | nil => exact hx
  | cons y r =>
      rw [joinSep_cons2]
      intro h
      rcases List.append_eq_nil.1 h with ⟨h1, _⟩
      rcases List.append_eq_nil.1 h1 with ⟨h2, _⟩
      exact hx h2

theorem joinSep_headD {sep x : Str} {xs : List Str} {d : Char} (hx : x ≠ []) :
    (joinSep sep (x :: xs)).headD d = x.headD d := by
  cases xs with
  | nil => rfl
  | cons y r =>
      rw [joinSep_cons2, List.append_assoc]
      exact headD_append_left hx

theorem joinSep_revheadD {sep : Str} {d : Char} :
    ∀ (xs : List Str) (x : Str), (∀ e ∈ x :: xs, e ≠ []) →
      ∃ last ∈ x :: xs, (joinSep sep (x :: xs)).reverse.headD d = last.reverse.headD d := by
  intro xs
  induction xs with
  | nil =>
      intro x _
      exact ⟨x, List.mem_cons_self _ _, rfl⟩
  | cons y r ih =>
      intro x hall
      obtain ⟨last, hmem, hl⟩ := ih y (fun e he => hall e (List.mem_cons_of_mem _ he))
      refine ⟨last, List.mem_cons_of_mem _ hmem, ?_⟩
      have hj : joinSep sep (y :: r) ≠ [] := joinSep_ne_nil (hall y (by simp))
      rw [joinSep_cons2, List.append_assoc,
        revhead_append (show sep ++ joinSep sep (y :: r) ≠ [] from fun hh =>
          hj (List.append_eq_nil.1 hh).2),
        revhead_append hj]
      exact hl

/-- Scanning one serialized block (`seq \n timeline \n text`) consumes it
whole: no separator matches inside, because every newline is followed by a
non-whitespace character. -/
theorem scan_block (a T X : Str)
    (hanl : ∀ ch ∈ a, ch ≠ '\n') (hTnl : ∀ ch ∈ T, ch ≠ '\n')
    (hXnl : ∀ ch ∈ X, ch ≠ '\n')
    (hT : T ≠ []) (hTh : isWS (T.headD ' ') = false)
    (hX : X ≠ []) (hXh : isWS (X.headD ' ') = false) :
    ∀ (fuel : Nat) (rest acc : Str),
      splitBlocksAux (fuel + (a ++ '\n' :: (T ++ '\n' :: X)).length)
          ((a ++ '\n' :: (T ++ '\n' :: X)) ++ rest) acc =
        splitBlocksAux fuel rest ((a ++ '\n' :: (T ++ '\n' :: X)).reverse ++ acc) := by
  obtain ⟨t0, T', rfl⟩ : ∃ t0 T', T = t0 :: T' := by
    cases T with
    | nil => exact absurd rfl hT
    | cons t0 T' => exact ⟨t0, T', rfl⟩
  obtain ⟨x0, X', rfl⟩ : ∃ x0 X', X = x0 :: X' := by
    cases X with
    | nil => exact absurd rfl hX
    | cons x0 X' => exact ⟨x0, X', rfl⟩
  simp only [List.headD_cons] at hTh hXh
  intro fuel rest acc
  simp only [List.cons_append, List.append_assoc]
  rw [show fuel + (a ++ '\n' :: (t0 :: (T' ++ '\n' :: (x0 :: X')))).length =
      ((((fuel + (x0 :: X').length) + 1) + (t0 :: T').length + 1)) + a.length from by
    simp
    omega]
  rw [scan_noNL a hanl]
  rw [show (((fuel + (x0 :: X').length) + 1) + (t0 :: T').length + 1) =
      ((((fuel + (x0 :: X').length) + 1) + (t0 :: T').length)) + 1 from rfl]
  rw [scan_nl hTh]
  rw [show t0 :: (T' ++ '\n' :: (x0 :: (X' ++ rest))) =
      (t0 :: T') ++ ('\n' :: (x0 :: (X' ++ rest))) from by simp]
  rw [scan_noNL (t0 :: T') hTnl]
  rw [show (((fuel + (x0 :: X').length) + 1)) = ((fuel + (x0 :: X').length)) + 1 from rfl]
  rw [scan_nl hXh]
  rw [show x0 :: (X' ++ rest) = (x0 :: X') ++ rest from by simp]
  rw [scan_noNL (x0 :: X') hXnl]
  simp [List.reverse_append, List.append_assoc]

theorem revhead_cons {x : Char} {C : Str} {d : Char} (h : C ≠ []) :
    ((x :: C).reverse).headD d = C.reverse.headD d := by
  rw [List.reverse_cons]
  exact headD_append_left (by simpa)

theorem natToStr_headD_digit (n : Nat) : isDigit ((natToStr n).headD ' ') = true := by
  cases hs : natToStr n with
  | nil => exact absurd hs (natToStr_ne_nil n)
  | cons d r =>
      have := natToStr_all n
      rw [hs, List.all_cons, Bool.and_eq_true] at this
      simpa using this.1

theorem cueCore_shape (c : Cue) (h1 : 1 ≤ c.id) :
    cueCore c = natToStr c.id.toNat ++
      '\n' :: ((c.start ++ arrowSep ++ c.end_) ++ '\n' :: c.text) := by
  unfold cueCore
  rw [intToStr_of_nonneg (by omega)]
  simp [List.cons_append, List.append_assoc]

theorem canon_ne_nil {s : Str} (h : isCanonicalTime s = true) : s ≠ [] :=
  (canon_chars s h).2.1

theorem timeline_noNL {c : Cue} (hs : isCanonicalTime c.start = true)
    (he : isCanonicalTime c.end_ = true) :
    ∀ ch ∈ c.start ++ arrowSep ++ c.end_, ch ≠ '\n' ∧ ch ≠ '\r' := by
  intro ch hch
  rcases List.mem_append.1 hch with hch1 | hch2
  · rcases List.mem_append.1 hch1 with hch3 | hch4
    · have := tchar_props ((canon_chars _ hs).1 ch hch3)
      exact ⟨this.1, this.2.1⟩
    · exact arrow_char_props hch4
  · have := tchar_props ((canon_chars _ he).1 ch hch2)
    exact ⟨this.1, this.2.1⟩

theorem timeline_head_nonws {c : Cue} (hs : isCanonicalTime c.start = true) :
    isWS ((c.start ++ arrowSep ++ c.end_).headD ' ') = false := by
  rw [headD_append_left (by
    intro hh
    exact canon_ne_nil hs (List.append_eq_nil.1 hh).1)]
  rw [headD_append_left (canon_ne_nil hs)]
  exact isWS_eq_false_of_isDigit (canon_chars _ hs).2.2.1

theorem timeline_rev_nonws {c : Cue} (he : isCanonicalTime c.end_ = true) :
    isWS ((c.start ++ arrowSep ++ c.end_).reverse.headD ' ') = false := by
  rw [revhead_append (canon_ne_nil he)]
  exact isWS_eq_false_of_isDigit (canon_chars _ he).2.2.2

theorem cueCore_ne_nil (c : Cue) (h1 : 1 ≤ c.id) : cueCore c ≠ [] := by
  rw [cueCore_shape c h1]
  intro hh
  exact natToStr_ne_nil _ (List.append_eq_nil.1 hh).1

theorem cueCore_head_nonws (c : Cue) (h1 : 1 ≤ c.id) :
    isWS ((cueCore c).headD ' ') = false := by
  rw [cueCore_shape c h1, headD_append_left (natToStr_ne_nil _)]
  exact isWS_eq_false_of_isDigit (natToStr_headD_digit _)

theorem cueCore_rev_nonws (c : Cue) (h : goodCue c) :
    isWS ((cueCore c).reverse.headD ' ') = false := by
  obtain ⟨h1, hs, he, htne, _, htrim⟩ := h
  rw [cueCore_shape c h1, revhead_append (by simp),
    revhead_cons (by
      intro hh
      exact absurd (List.append_eq_nil.1 hh).2 (by simp)),
    revhead_append (by simp), revhead_cons htne]
  exact (trim_self_bounds htne htrim).2

theorem scan_core (c : Cue) (h : goodCue c) :
    ∀ (fuel : Nat) (rest acc : Str),
      splitBlocksAux (fuel + (cueCore c).length) (cueCore c ++ rest) acc =
        splitBlocksAux fuel rest ((cueCore c).reverse ++ acc) := by
  obtain ⟨h1, hs, he, htne, htnl, htrim⟩ := h
  rw [cueCore_shape c h1]
  refine scan_block _ _ _ ?_ ?_ ?_ ?_ ?_ htne ?_
  · intro ch hch
    exact (natToStr_char_props hch).1
  · intro ch hch
    exact (timeline_noNL hs he ch hch).1
  · intro ch hch
    exact (htnl ch hch).1
  · intro hh
    exact canon_ne_nil hs (List.append_eq_nil.1 (List.append_eq_nil.1 hh).1).1
  · exact timeline_head_nonws hs
  · exact (trim_self_bounds htne htrim).1

theorem splitAux_join : ∀ (cues : List Cue), cues ≠ [] → (∀ c ∈ cues, goodCue c) →
    ∀ (extra : Nat),
      splitBlocksAux ((joinSep ['\n', '\n'] (cues.map cueCore)).length + extra)
          (joinSep ['\n', '\n'] (cues.map cueCore)) [] = cues.map cueCore := by
  intro cues
  induction cues with
  | nil => intro h; exact absurd rfl h
  | cons c rest ih =>
      intro _ hgood extra
      cases rest with
      | nil =>
          show splitBlocksAux ((cueCore c).length + extra) (cueCore c) [] = [cueCore c]
          have hsc := scan_core c (hgood c (by simp)) extra [] []
          rw [List.append_nil] at hsc
          rw [show (cueCore c).length + extra = extra + (cueCore c).length from by omega,
            hsc]
          simp [splitBlocksAux]
      | cons c2 rest2 =>
          have hg2 : goodCue c2 := hgood c2 (by simp)
          have hJne : joinSep ['\n', '\n'] ((c2 :: rest2).map cueCore) ≠ [] := by
            rw [List.map_cons]
            exact joinSep_ne_nil (cueCore_ne_nil c2 hg2.1)
          have hJhead : isWS ((joinSep ['\n', '\n']
              ((c2 :: rest2).map cueCore)).headD ' ') = false := by
            rw [List.map_cons, joinSep_headD (cueCore_ne_nil c2 hg2.1)]
            exact cueCore_head_nonws c2 hg2.1
          rw [show (c :: c2 :: rest2).map cueCore =
              cueCore c :: (c2 :: rest2).map cueCore from rfl]
          rw [show joinSep ['\n', '\n'] (cueCore c :: (c2 :: rest2).map cueCore) =
              cueCore c ++ ['\n', '\n'] ++
                joinSep ['\n', '\n'] ((c2 :: rest2).map cueCore) from by
            rw [List.map_cons]
            exact joinSep_cons2 _ _ _ _]
          simp only [List.append_assoc, List.cons_append, List.nil_append]
          rw [show (cueCore c ++ '\n' :: '\n' ::
              joinSep ['\n', '\n'] ((c2 :: rest2).map cueCore)).length + extra =
            ((((joinSep ['\n', '\n'] ((c2 :: rest2).map cueCore)).length + (extra + 1)) + 1)
              + (cueCore c).length) from by
            simp
            omega]
          rw [scan_core c (hgood c (by simp))]
          rw [scan_sep _ (Or.inr hJhead)]
          rw [ih (by simp) (fun d hd => hgood d (List.mem_cons_of_mem _ hd)) (extra + 1)]
          simp

theorem splitBlocks_join (cues : List Cue) (hne : cues ≠ [])
    (h : ∀ c ∈ cues, goodCue c) :
    splitBlocks (joinSep ['\n', '\n'] (cues.map cueCore)) = cues.map cueCore := by
  unfold splitBlocks
  have := splitAux_join cues hne h 0
  simpa using this

theorem all_revheadD_digit {s : Str} (hall : s.all isDigit = true) (hne : s ≠ []) :
    isDigit (s.reverse.headD ' ') = true := by
  cases hr : s.reverse with
  | nil => exact absurd (by simpa using congrArg List.reverse hr) hne
  | cons d r =>
      have hd : d ∈ s := by
        rw [← List.mem_reverse, hr]
        simp
      rw [List.all_eq_true] at hall
      simpa using hall d hd

theorem timeToken?_canon (s : Str) (h : isCanonicalTime s = true) (r : Str) :
    timeToken? (s ++ r) = some (s, r) := by
  unfold isCanonicalTime at h
  split at h
  case h_2 => cases h
  case h_1 h1 h2 c1 m1 m2 c2 s1 s2 c3 d1 d2 d3 =>
    simp only [decide_eq_true_eq] at h
    obtain ⟨hh1, hh2, rfl, hm1, hm2, rfl, hs1, hs2, rfl, hd1, hd2, hd3⟩ := h
    show timeToken?
        (h1 :: h2 :: ':' :: m1 :: m2 :: ':' :: s1 :: s2 :: ',' :: d1 :: d2 :: d3 :: r) = _
    unfold timeToken?
    dsimp only
    rw [if_pos ⟨hh1, hh2, rfl, hm1, hm2, rfl, hs1, hs2, Or.inl rfl, hd1, hd2, hd3⟩]

theorem dropWhile_isWS_canon {s : Str} (h : isCanonicalTime s = true) :
    List.dropWhile isWS s = s := by
  show trimLeft s = s
  exact trimLeft_eq_self (Or.inr (isWS_eq_false_of_isDigit (canon_chars _ h).2.2.1))

theorem timePatternAt_arrow (s1 s2 : Str) (h1 : isCanonicalTime s1 = true)
    (h2 : isCanonicalTime s2 = true) :
    timePatternAt (s1 ++ arrowSep ++ s2) = some (s1, s2) := by
  have htk2 : timeToken? s2 = some (s2, []) := by
    have := timeToken?_canon s2 h2 []
    rwa [List.append_nil] at this
  unfold timePatternAt
  rw [List.append_assoc, timeToken?_canon s1 h1 (arrowSep ++ s2)]
  dsimp only
  rw [show List.dropWhile isWS (arrowSep ++ s2) = '-' :: '-' :: '>' :: ' ' :: s2 from by
    show List.dropWhile isWS (' ' :: '-' :: '-' :: '>' :: ' ' :: s2) = _
    rw [List.dropWhile_cons, if_pos (by decide), List.dropWhile_cons, if_neg (by decide)]]
  show (match timeToken? (List.dropWhile isWS (' ' :: s2)) with
    | some (g2, _) => some (s1, g2)
    | none => none) = some (s1, s2)
  rw [List.dropWhile_cons, if_pos (by decide), dropWhile_isWS_canon h2, htk2]

theorem timeMatch_arrow (s1 s2 : Str) (h1 : isCanonicalTime s1 = true)
    (h2 : isCanonicalTime s2 = true) :
    timeMatch? (s1 ++ arrowSep ++ s2) = some (s1, s2) := by
  obtain ⟨c, s1', rfl⟩ : ∃ c s1', s1 = c :: s1' := by
    cases hs : s1 with
    | nil => exact absurd hs (canon_ne_nil h1)
    | cons c s1' => exact ⟨c, s1', rfl⟩
  have hpat := timePatternAt_arrow (c :: s1') s2 h1 h2
  simp only [List.cons_append, List.append_assoc] at hpat ⊢
  unfold timeMatch?
  rw [hpat]

theorem jsReplaceFirst_id {pat repl : Char} :
    ∀ s : Str, (∀ ch ∈ s, ch ≠ pat) → jsReplaceFirst pat repl s = s := by
  intro s h
  induction s with
  | nil => rfl
  | cons c r ih =>
      unfold jsReplaceFirst
      rw [if_neg (h c (List.mem_cons_self _ _)),
        ih (fun ch hch => h ch (List.mem_cons_of_mem _ hch))]

theorem trim_natToStr (n : Nat) : trim (natToStr n) = natToStr n :=
  trim_eq_self
    (Or.inr (isWS_eq_false_of_isDigit (natToStr_headD_digit n)))
    (Or.inr (isWS_eq_false_of_isDigit
      (all_revheadD_digit (natToStr_all n) (natToStr_ne_nil n))))

theorem parseSubtitleBlock_core (c : Cue) (h : goodCue c) (i : Nat) :
    parseSubtitleBlock
      [natToStr c.id.toNat, c.start ++ arrowSep ++ c.end_, c.text] i = some c := by
  obtain ⟨h1, hs, he, htne, htnl, htrim⟩ := h
  have hseq : parsedSeqId
      [natToStr c.id.toNat, c.start ++ arrowSep ++ c.end_, c.text] i = c.id := by
    unfold parsedSeqId
    simp only [List.headD_cons]
    rw [trim_natToStr,
      jsParseInt_digits _ (natToStr_ne_nil _) (natToStr_all _), digitsToNat_natToStr]
    dsimp only
    rw [if_neg (by omega)]
    exact Int.toNat_of_nonneg (by omega)
  have htl : trim (c.start ++ arrowSep ++ c.end_) = c.start ++ arrowSep ++ c.end_ :=
    trim_eq_self (Or.inr (timeline_head_nonws hs)) (Or.inr (timeline_rev_nonws he))
  unfold parseSubtitleBlock
  dsimp only [List.headD_cons, List.drop_succ_cons, List.drop_zero]
  rw [hseq, htl, timeMatch_arrow c.start c.end_ hs he]
  dsimp only
  rw [show joinSep [' '] [c.text] = c.text from rfl, htrim]
  rw [if_pos htne]
  rw [jsReplaceFirst_id c.start (fun ch hch => (tchar_props ((canon_chars _ hs).1 ch hch)).2.2.2),
    jsReplaceFirst_id c.end_ (fun ch hch => (tchar_props ((canon_chars _ he).1 ch hch)).2.2.2)]

theorem splitNL_core (c : Cue) (h : goodCue c) :
    splitOnChar '\n' (cueCore c) =
      [natToStr c.id.toNat, c.start ++ arrowSep ++ c.end_, c.text] := by
  obtain ⟨h1, hs, he, htne, htnl, htrim⟩ := h
  rw [cueCore_shape c h1]
  unfold splitOnChar
  rw [splitOnP_append_sep (p := fun ch => decide (ch = '\n')) '\n' (by decide) _ _
    (fun ch hch => by simpa using ((natToStr_char_props hch).1))]
  rw [splitOnP_append_sep (p := fun ch => decide (ch = '\n')) '\n' (by decide) _ _
    (fun ch hch => by simpa using ((timeline_noNL hs he ch hch).1))]
  rw [splitOnP_of_none _ (fun ch hch => by simpa using ((htnl ch hch).1))]

theorem mem_joinSep {sep : Str} {ch : Char} :
    ∀ {l : List Str}, ch ∈ joinSep sep l → ch ∈ sep ∨ ∃ x ∈ l, ch ∈ x := by
  intro l
  induction l with
  | nil => intro h; cases h
  | cons x xs ih =>
      intro h
      cases xs with
      | nil => exact Or.inr ⟨x, by simp, h⟩
      | cons y r =>
          rw [joinSep_cons2] at h
          rcases List.mem_append.1 h with h1 | h2
          · rcases List.mem_append.1 h1 with h3 | h4
            · exact Or.inr ⟨x, by simp, h3⟩
            · exact Or.inl h4
          · rcases ih h2 with h5 | ⟨z, hz, hzc⟩
            · exact Or.inl h5
            · exact Or.inr ⟨z, List.mem_cons_of_mem _ hz, hzc⟩

theorem mem_cueCore_ne_cr {c : Cue} (h : goodCue c) :
    ∀ ch ∈ cueCore c, ch ≠ '\r' := by
  obtain ⟨h1, hs, he, htne, htnl, htrim⟩ := h
  rw [cueCore_shape c h1]
  intro ch hch
  rcases List.mem_append.1 hch with hA | hB
  · exact (natToStr_char_props hA).2.1
  · rcases List.mem_cons.1 hB with rfl | hB2
    · decide
    · rcases List.mem_append.1 hB2 with hT | hX
      · exact (timeline_noNL hs he ch hT).2
      · rcases List.mem_cons.1 hX with rfl | hX2
        · decide
        · exact (htnl ch hX2).2

theorem generate_eq : ∀ (cues : List Cue), cues ≠ [] →
    generateSRTContent cues =
      joinSep ['\n', '\n'] (cues.map cueCore) ++ ['\n'] := by
  intro cues
  induction cues with
  | nil => intro h; exact absurd rfl h
  | cons c rest ih =>
      intro _
      cases rest with
      | nil => rfl
      | cons c2 r2 =>
          unfold generateSRTContent
          rw [show (c :: c2 :: r2).map cueBlock =
              cueBlock c :: (c2 :: r2).map cueBlock from rfl]
          rw [show joinSep ['\n'] (cueBlock c :: (c2 :: r2).map cueBlock) =
              cueBlock c ++ ['\n'] ++ joinSep ['\n'] ((c2 :: r2).map cueBlock) from by
            rw [List.map_cons]
            exact joinSep_cons2 _ _ _ _]
          rw [show joinSep ['\n'] ((c2 :: r2).map cueBlock) =
              generateSRTContent (c2 :: r2) from rfl]
          rw [ih (by simp)]
          rw [show (c :: c2 :: r2).map cueCore =
              cueCore c :: (c2 :: r2).map cueCore from rfl]
          rw [show joinSep ['\n', '\n'] (cueCore c :: (c2 :: r2).map cueCore) =
              cueCore c ++ ['\n', '\n'] ++
                joinSep ['\n', '\n'] ((c2 :: r2).map cueCore) from by
            rw [List.map_cons]
            exact joinSep_cons2 _ _ _ _]
          unfold cueBlock
          simp [List.append_assoc]

theorem trim_app_nl (J : Str) (hne : J ≠ []) (hh : isWS (J.headD ' ') = false)
    (hl : isWS (J.reverse.headD ' ') = false) : trim (J ++ ['\n']) = J := by
  unfold trim
  rw [trimLeft_eq_self (Or.inr (by rw [headD_append_left hne]; exact hh))]
  unfold trimRight
  rw [List.reverse_append]
  rw [show (['\n'] : Str).reverse ++ J.reverse = '\n' :: J.reverse from by simp]
  rw [List.dropWhile_cons, if_pos (by decide)]
  rw [show List.dropWhile isWS J.reverse = trimLeft J.reverse from rfl,
    trimLeft_eq_self (Or.inr hl), List.reverse_reverse]

theorem parse_join : ∀ (cues : List Cue), (∀ c ∈ cues, goodCue c) → ∀ (n : Nat),
    ((cues.map cueCore).enumFrom n).filterMap (fun p =>
      if trim p.2 = [] then none
      else
        let lines := splitOnChar '\n' (trim p.2)
        if 3 ≤ lines.length then parseSubtitleBlock lines p.1 else none) = cues := by
  intro cues
  induction cues with
  | nil => intro _ n; rfl
  | cons c rest ih =>
      intro hgood n
      have hg : goodCue c := hgood c (by simp)
      have htrimc : trim (cueCore c) = cueCore c :=
        trim_eq_self (Or.inr (cueCore_head_nonws c hg.1)) (Or.inr (cueCore_rev_nonws c hg))
      rw [List.map_cons, List.enumFrom_cons, List.filterMap_cons]
      dsimp only
      rw [htrimc, if_neg (cueCore_ne_nil c hg.1), splitNL_core c hg]
      rw [if_pos (by norm_num), parseSubtitleBlock_core c hg n]
      rw [ih (fun d hd => hgood d (List.mem_cons_of_mem _ hd)) (n + 1)]

/-! ### Theorems -/

/-- Claim C4 (code bug): `deleteSubtitle(5)` on a store whose only cue has
sequence number 5 (but row id 1) answers 404 and deletes nothing, because
`findByPk` searches the primary key `id`; `deleteSubtitle(1)` instead
deletes that cue, whose sequence number is 5, not 1. -/
theorem C4_deleteSubtitle_pk_bug :
    deleteSubtitle dbC4 5 none 1 = (dbC4, DelStatus.notFound) ∧
    (∃ r ∈ dbC4.subs, r.sequence_number = 5) ∧
    (deleteSubtitle dbC4 1 none 1).1.subs = [] ∧
    (dbC4.subs.headD ⟨0, 0, 0, [], [], []⟩).sequence_number = 5 := by
  decide

/-- Claim C10 (code bug): the optimistic update of the hook's
`deleteSubtitle(3)` filters on the never-assigned `sequence` property
(`undefined !== 3` holds for every cue), so the cue whose sequence number is
3 is not removed from the local list; the rollback path returns the prior
list (trivially, nothing having been removed). -/
theorem C10_sequence_field_bug :
    (deleteSubtitleFlow subsC10 3 true).1 = subsC10 ∧
    (deleteSubtitleFlow subsC10 3 false).2 = subsC10 ∧
    (subsC10.headD default).sequence_number = 3 ∧
    subsC10.all (fun c => c.sequence = none) = true := by
  decide

/-- Claim C6, counterexample: a form whose timestamps both match
`HH:MM:SS,mmm` but with end (1 s) ≤ start (5 s) passes
`validateSubtitleForm`, and `handleSaveChanges` commits the out-of-order
range to the cue list instead of rejecting it. -/
theorem C6_counterexample :
    validateSubtitleForm formC6 = true ∧
    handleSaveChanges cuesC6 0 formC6 =
      [⟨1, "00:00:05,000".data, "00:00:01,000".data, "x".data⟩] ∧
    secOf "00:00:01,000".data < secOf "00:00:05,000".data := by
  refine ⟨by decide, by decide, ?_⟩
  rw [secOf_canon _ (by decide), secOf_canon _ (by decide),
    show canonMs "00:00:01,000".data = 1000 from rfl,
    show canonMs "00:00:05,000".data = 5000 from rfl]
  norm_num

/-- Claim C6, amended: the edit form rejects only empty fields and malformed
timestamps; a form whose two timestamps match `HH:MM:SS[,.]mmm` — here with
end ≤ start — passes validation and is committed verbatim onto the selected
cue (text trimmed). -/
theorem C6_amended (cues : List Cue) (i : Nat) (f : EditForm)
    (hs : f.start ≠ []) (he : f.end_ ≠ []) (ht : trim f.text ≠ [])
    (hfs : isLooseTime f.start = true) (hfe : isLooseTime f.end_ = true)
    (hi : i < cues.length) :
    validateSubtitleForm f = true ∧
    handleSaveChanges cues (i : Int) f =
      cues.set i { cues.getD i default with
                    start := f.start, end_ := f.end_, text := trim f.text } := by
  have hv : validateSubtitleForm f = true := by
    unfold validateSubtitleForm
    rw [if_neg (by simp [hs, he, ht]), if_neg (by simp [hfs, hfe])]
  refine ⟨hv, ?_⟩
  unfold handleSaveChanges
  rw [if_neg (by omega), if_neg (by simp [hv])]
  have hget : cues.get? ((i : Int)).toNat = some (cues.getD i default) := by
    simp [Int.toNat_natCast, List.get?_eq_getElem?, List.getElem?_eq_getElem hi,
      List.getD_eq_getElem?_getD, List.getElem?_eq_getElem hi]
  rw [hget]
  simp [Int.toNat_natCast]

/-- Claim C6, amended, witness at the counterexample fixture. -/
theorem C6_amended_witness :
    validateSubtitleForm formC6 = true ∧
    handleSaveChanges cuesC6 (0 : Nat) formC6 =
      cuesC6.set 0 { cuesC6.getD 0 default with
                      start := formC6.start, end_ := formC6.end_,
                      text := trim formC6.text } :=
  C6_amended cuesC6 0 formC6 (by decide) (by decide) (by decide) (by decide)
    (by decide) (by decide)

/-- Claim C7, counterexample: at index 2 of `cuesC7` the nearest preceding
cue ends at 2 s, so the claim predicts `minTime = 2.1`; the code takes the
maximum over all preceding cues and returns `10.1` (cue 0 ends at 10 s). -/
theorem C7_counterexample :
    getTimeConstraints 2 cuesC7 60 = (101/10, 60) ∧
    secOf (cuesC7.getD 1 default).end_ + 1/10 = 21/10 ∧
    (101/10 : ℚ) ≠ 21/10 := by
  have e0 : secOf "00:00:10,000".data = 10 := by
    rw [secOf_canon _ (by decide), show canonMs "00:00:10,000".data = 10000 from rfl]
    norm_num
  have e1 : secOf "00:00:02,000".data = 2 := by
    rw [secOf_canon _ (by decide), show canonMs "00:00:02,000".data = 2000 from rfl]
    norm_num
  refine ⟨?_, ?_, by norm_num⟩
  · show (minConstraintAux 2 0 cuesC7 0, maxConstraintAux 2 0 cuesC7 60) = _
    norm_num [cuesC7, minConstraintAux, maxConstraintAux, e0, e1, max_def]
  · show secOf "00:00:02,000".data + 1/10 = 21/10
    rw [e1]
    norm_num

/-- Claim C7, amended: `getTimeConstraints(i)` returns `minTime` equal to the
maximum of 0 and `end + 0.1` over ALL cues preceding index `i` (not only the
nearest), and `maxTime` equal to the minimum of the media duration and
`start − 0.1` over ALL cues following index `i` (clamped to the duration even
when a following cue exists). -/
theorem C7_amended (i : Nat) (cues : List Cue) (d : ℚ) :
    getTimeConstraints i cues d =
      ((cues.take i).foldl (fun a c => max a (secOf c.end_ + 1/10)) 0,
       (cues.drop (i + 1)).foldl (fun a c => min a (secOf c.start - 1/10)) d) := by
  unfold getTimeConstraints
  rw [minConstraintAux_eq, maxConstraintAux_eq]
  norm_num

/-- Claim C3: the backend save-all is atomic.  Every non-success outcome
(input validation, model validation, the unique index) leaves the database
exactly as it was (the transaction rolls back); on success the SRT row is
created or its metadata updated, every stored subtitle of that file is
deleted, and exactly the supplied subtitles are inserted (rows of other
files untouched, being the `filter` prefix). -/
theorem C3_saveSubtitles_atomic (db : DB) (req : SaveReq) (now : Nat) :
    ((saveSubtitles db req now).2 ≠ SaveStatus.created →
      (saveSubtitles db req now).1 = db) ∧
    ((saveSubtitles db req now).2 = SaveStatus.created →
      ∃ (subsP : List SubPayload) (sid : Nat),
        req.subtitles = some subsP ∧
        (saveSubtitles db req now).1.subs =
          db.subs.filter (fun r => r.srt_id ≠ sid) ++ savedRows sid db.nextSubId subsP ∧
        ((∃ s ∈ db.srts, s.filename = req.filename ∧ sid = s.id ∧
            (saveSubtitles db req now).1.srts =
              db.srts.map (fun r => if r.id = sid then
                { r with edited_by := req.edited_by, updated_at := now } else r)) ∨
          ((∀ s ∈ db.srts, s.filename ≠ req.filename) ∧ sid = db.nextSrtId ∧
            (saveSubtitles db req now).1.srts =
              db.srts ++ [⟨db.nextSrtId, req.filename, req.edited_by, now⟩]))) := by
  unfold saveSubtitles
  cases hsub : req.subtitles with
  | none => exact ⟨fun _ => rfl, fun h => by simp at h⟩
  | some subs =>
      dsimp only
      split_ifs with h1 h2 h3 h4 h5
      · exact ⟨fun _ => rfl, fun h => by simp at h⟩
      · exact ⟨fun _ => rfl, fun h => by simp at h⟩
      · exact ⟨fun _ => rfl, fun h => by simp at h⟩
      · refine ⟨fun hcon => absurd rfl hcon, fun _ => ?_⟩
        cases hf : db.srts.find? (fun s => s.filename = req.filename) with
        | some srow =>
            have hname : srow.filename = req.filename := by
              simpa using List.find?_some hf
            exact ⟨subs, srow.id, rfl, rfl,
              Or.inl ⟨srow, List.mem_of_find?_eq_some hf, hname, rfl, rfl⟩⟩
        | none =>
            refine ⟨subs, db.nextSrtId, rfl, rfl, Or.inr ⟨?_, rfl, rfl⟩⟩
            intro s hs
            have := List.find?_eq_none.1 hf s hs
            simpa using this
      · exact ⟨fun _ => rfl, fun h => by simp at h⟩
      · exact ⟨fun _ => rfl, fun h => by simp at h⟩

/-- Claim C3, witness: the atomicity statement instantiated at a concrete
store and a valid request. -/
theorem C3_saveSubtitles_atomic_witness :
    ((saveSubtitles dbC4 reqC3 7).2 ≠ SaveStatus.created →
      (saveSubtitles dbC4 reqC3 7).1 = dbC4) ∧
    ((saveSubtitles dbC4 reqC3 7).2 = SaveStatus.created →
      ∃ (subsP : List SubPayload) (sid : Nat),
        reqC3.subtitles = some subsP ∧
        (saveSubtitles dbC4 reqC3 7).1.subs =
          dbC4.subs.filter (fun r => r.srt_id ≠ sid) ++ savedRows sid dbC4.nextSubId subsP ∧
        ((∃ s ∈ dbC4.srts, s.filename = reqC3.filename ∧ sid = s.id ∧
            (saveSubtitles dbC4 reqC3 7).1.srts =
              dbC4.srts.map (fun r => if r.id = sid then
                { r with edited_by := reqC3.edited_by, updated_at := 7 } else r)) ∨
          ((∀ s ∈ dbC4.srts, s.filename ≠ reqC3.filename) ∧ sid = dbC4.nextSrtId ∧
            (saveSubtitles dbC4 reqC3 7).1.srts =
              dbC4.srts ++ [⟨dbC4.nextSrtId, reqC3.filename, reqC3.edited_by, 7⟩]))) :=
  C3_saveSubtitles_atomic dbC4 reqC3 7

/-- Claim C9: `parseSRT` is total (it is a Lean function on every input
string) and permissive: over the normalized, trimmed, blank-line-split
blocks, a block is omitted exactly when it has fewer than 3 lines, its
joined text trims to empty, or its time line fails the
`<time> --> <time>` pattern (the `Option.map` over the match); every other
block yields its cue, in input block order.  The separate
`if (!block.trim()) return` of the source adds nothing: a whitespace-only
block splits into fewer than 3 lines. -/
theorem C9_parseSRT_permissive (content : Str) :
    parseSRT content =
      (splitBlocks (trim (crToLF (stripCRLF content)))).enum.filterMap (fun p =>
        let lines := splitOnChar '\n' (trim p.2)
        let text := trim (joinSep [' '] (lines.drop 2))
        if 3 ≤ lines.length ∧ text ≠ [] then
          (timeMatch? (trim ((lines.drop 1).headD []))).map (fun g =>
            ⟨parsedSeqId lines p.1, jsReplaceFirst '.' ',' g.1,
              jsReplaceFirst '.' ',' g.2, text⟩)
        else none) := by
  unfold parseSRT
  refine List.filterMap_congr ?_
  rintro ⟨i, b⟩ _
  dsimp only
  by_cases hb : trim b = []
  · rw [if_pos hb, hb]
    simp [splitOnChar, splitOnP]
  · rw [if_neg hb]
    by_cases h3 : 3 ≤ (splitOnChar '\n' (trim b)).length
    · rw [if_pos h3]
      unfold parseSubtitleBlock
      dsimp only
      by_cases ht : trim (joinSep [' '] ((splitOnChar '\n' (trim b)).drop 2)) = []
      · rw [if_neg (fun hc => hc.2 ht)]
        cases hm : timeMatch? (trim (((splitOnChar '\n' (trim b)).drop 1).headD [])) with
        | none => rfl
        | some g =>
            dsimp only
            rw [if_neg (not_not_intro ht)]
      · rw [if_pos ⟨h3, ht⟩]
        cases hm : timeMatch? (trim (((splitOnChar '\n' (trim b)).drop 1).headD [])) with
        | none => rfl
        | some g =>
            dsimp only
            rw [if_pos ht]
            rfl
    · rw [if_neg h3, if_neg (fun hc => h3 hc.1)]

/-- Claim C2, counterexample: in `cuesC2` the drag floor of cue 1's start
(previous end 1 s + 0.1 s) equals its own end (1.2 s) minus 0.1 s, so
dragging the start edge to mouse time 0 lands the new start exactly on
`end − 0.1` — the claim's forbidden `start ≥ end − 0.1`. -/
theorem C2_counterexample :
    secOf (((handleSubtitleDrag cuesC2 1 DragEdge.startEdge 0 60).getD 1 default).start) =
      secOf ((cuesC2.getD 1 default).end_) - 1/10 := by
  have hA : secOf "00:00:01,000".data = 1 := by
    rw [secOf_canon _ (by decide), show canonMs "00:00:01,000".data = 1000 from rfl]
    norm_num
  have he : secOf "00:00:01,200".data = 6/5 := by
    rw [secOf_canon _ (by decide), show canonMs "00:00:01,200".data = 1200 from rfl]
    norm_num
  show secOf (secondsToSRTTime (max (max 0 (secOf "00:00:01,000".data + 1/10))
      (min 0 (secOf "00:00:01,200".data - 1/10)))) = secOf "00:00:01,200".data - 1/10
  rw [hA, he]
  rw [show (max (max 0 ((1 : ℚ) + 1/10)) (min 0 (6/5 - 1/10))) = 11/10 from by
    norm_num [max_def, min_def]]
  unfold secOf
  rw [timeToSeconds_secondsToSRTTime (11/10) (by norm_num)]
  rw [show (1000 : ℚ) * (11/10) = ((1100 : ℤ) : ℚ) from by norm_num, Int.floor_intCast]
  norm_num

/-- Claim C2, amended: for a canonical cue list, dragging cue `k`'s start
edge to any mouse time (a) never lands the stored start below any preceding
cue's end + 0.1 s, and (b) keeps the stored start at or below the cue's own
end − 0.1 s whenever the constraint floor `minTime` does not itself exceed
`end − 0.1` (when it does, or at equality, `start = end − 0.1` and beyond is
reached: the claim's strict bound fails, see the counterexample). -/
theorem C2_amended (cues : List Cue) (k : Nat) (m d : ℚ)
    (hcanon : ∀ c ∈ cues, isCanonicalTime c.start = true ∧ isCanonicalTime c.end_ = true)
    (hk : k < cues.length) :
    (∀ j, j < k →
      secOf ((cues.getD j default).end_) + 1/10 ≤
        secOf (((handleSubtitleDrag cues k DragEdge.startEdge m d).getD k default).start)) ∧
    ((getTimeConstraints k cues d).1 ≤ secOf ((cues.getD k default).end_) - 1/10 →
      secOf (((handleSubtitleDrag cues k DragEdge.startEdge m d).getD k default).start) ≤
        secOf ((cues.getD k default).end_) - 1/10) := by
  have hget : cues.get? k = some (cues.getD k default) := by
    simp [List.get?_eq_getElem?, List.getElem?_eq_getElem hk,
      List.getD_eq_getElem?_getD, List.getElem?_eq_getElem hk]
  set cue0 := cues.getD k default with hcue0
  set mn := (getTimeConstraints k cues d).1 with hmn
  set ns := max mn (min m (secOf cue0.end_ - 1/10)) with hns
  have hupd : handleSubtitleDrag cues k DragEdge.startEdge m d =
      cues.set k { cue0 with start := secondsToSRTTime ns } := by
    unfold handleSubtitleDrag
    rw [hget]
  have hgot : (cues.set k { cue0 with start := secondsToSRTTime ns }).getD k default =
      { cue0 with start := secondsToSRTTime ns } := by
    rw [List.getD_eq_getElem?_getD, List.getElem?_set_self]
    · rfl
    · simpa using hk
  have hmn_eq : mn = (cues.take k).foldl (fun a c => max a (secOf c.end_ + 1/10)) 0 := by
    rw [hmn]
    show minConstraintAux k 0 cues 0 = _
    rw [minConstraintAux_eq]
    norm_num
  have hmn0 : 0 ≤ mn := by
    rw [hmn_eq]
    exact le_foldl_max _ _ _
  have hns0 : 0 ≤ ns := le_trans hmn0 (le_max_left _ _)
  have hsecstart : secOf (secondsToSRTTime ns) = (⌊1000 * ns⌋ : ℚ) / 1000 := by
    unfold secOf
    rw [timeToSeconds_secondsToSRTTime ns hns0]
    rfl
  rw [hupd, hgot]
  constructor
  · intro j hj
    have hjlen : j < cues.length := lt_trans hj hk
    have hmem : cues.getD j default ∈ cues.take k := by
      rw [List.getD_eq_getElem?_getD, List.getElem?_eq_getElem hjlen]
      have hjt : j < (cues.take k).length := by
        rw [List.length_take]
        omega
      have heq : cues[j] = (cues.take k)[j] := by
        rw [List.getElem_take]
      rw [heq]
      exact List.getElem_mem _
    have hle1 : secOf ((cues.getD j default).end_) + 1/10 ≤ mn := by
      rw [hmn_eq]
      exact elem_le_foldl_max _ _ _ _ hmem
    have hle2 : mn ≤ ns := le_max_left _ _
    have hgrid : msGrid (secOf ((cues.getD j default).end_) + 1/10) := by
      refine msGrid_add_tenth (msGrid_secOf_canon _ ?_)
      have hmem' : cues.getD j default ∈ cues := List.mem_of_mem_take hmem
      exact (hcanon _ hmem').2
    have := grid_le_floor_ms hgrid (le_trans hle1 hle2)
    rw [hsecstart]
    exact this
  · intro hfloor
    have h1 : ns ≤ secOf cue0.end_ - 1/10 :=
      max_le hfloor (min_le_right _ _)
    rw [hsecstart]
    exact le_trans (floor_ms_le ns) h1

/-- Claim C2, amended, witness at `cuesC2`, dragging cue 1's start to mouse
time 3/2 with a 60 s media duration. -/
theorem C2_amended_witness :
    (∀ j, j < 1 →
      secOf ((cuesC2.getD j default).end_) + 1/10 ≤
        secOf (((handleSubtitleDrag cuesC2 1 DragEdge.startEdge (3/2) 60).getD 1 default).start)) ∧
    ((getTimeConstraints 1 cuesC2 60).1 ≤ secOf ((cuesC2.getD 1 default).end_) - 1/10 →
      secOf (((handleSubtitleDrag cuesC2 1 DragEdge.startEdge (3/2) 60).getD 1 default).start) ≤
        secOf ((cuesC2.getD 1 default).end_) - 1/10) :=
  C2_amended cuesC2 1 (3/2) 60 (by decide) (by decide)

/-- Claim C8: the active-cue computation (`srtData.findIndex`) returns the
index of the first cue in list order whose closed interval contains `t`, and
`-1` when no cue contains `t`; in particular, for a non-empty,
non-overlapping, time-sorted cue list it returns `-1` for any `t` before the
first cue's start or after the last cue's end. -/
theorem C8_findActiveIndex (cues : List Cue) (t : ℚ) :
    ((findActiveIndex cues t = -1) ↔ ∀ c ∈ cues, ¬ cueContains c t) ∧
    (∀ i : Nat, (findActiveIndex cues t = (i : Int)) ↔
      ∃ h : i < cues.length, cueContains (cues.get ⟨i, h⟩) t ∧
        ∀ j, (hj : j < i) → ¬ cueContains (cues.get ⟨j, lt_trans hj h⟩) t) ∧
    (cues ≠ [] →
      (∀ i j, (hi : i < cues.length) → (hj : j < cues.length) → i < j →
        secOf ((cues.get ⟨i, hi⟩).end_) ≤ secOf ((cues.get ⟨j, hj⟩).start)) →
      (∀ c ∈ cues, secOf c.start ≤ secOf c.end_) →
      (t < secOf ((cues.headD default).start) ∨ secOf ((cues.getLastD default).end_) < t) →
      findActiveIndex cues t = -1) := by
  have hpred : ∀ c : Cue,
      ((fun c => decide (secOf c.start ≤ t ∧ t ≤ secOf c.end_)) c = false) ↔
        ¬ cueContains c t := by
    intro c
    simp [cueContains]
  have hA : (findActiveIndex cues t = -1) ↔ ∀ c ∈ cues, ¬ cueContains c t := by
    unfold findActiveIndex
    cases h : cues.findIdx? (fun c => decide (secOf c.start ≤ t ∧ t ≤ secOf c.end_)) with
    | none =>
        rw [List.findIdx?_eq_none_iff] at h
        exact iff_of_true rfl (fun c hc => (hpred c).1 (h c hc))
    | some i' =>
        rw [List.findIdx?_eq_some_iff_getElem] at h
        obtain ⟨hi, hp, _⟩ := h
        refine iff_of_false (show ¬((i' : Int) = -1) by omega) ?_
        intro hall
        exact hall _ (List.getElem_mem hi) (of_decide_eq_true hp)
  refine ⟨hA, ?_, ?_⟩
  · intro i
    unfold findActiveIndex
    cases h : cues.findIdx? (fun c => decide (secOf c.start ≤ t ∧ t ≤ secOf c.end_)) with
    | none =>
        rw [List.findIdx?_eq_none_iff] at h
        refine iff_of_false (show ¬((-1 : Int) = (i : Int)) by omega) ?_
        rintro ⟨hi, hp, _⟩
        exact absurd hp ((hpred _).1 (h _ (List.getElem_mem hi)))
    | some i' =>
        rw [List.findIdx?_eq_some_iff_getElem] at h
        obtain ⟨hi', hp', hfirst'⟩ := h
        show (i' : Int) = (i : Int) ↔ _
        constructor
        · intro he
          have hii : i' = i := by exact_mod_cast he
          subst hii
          refine ⟨hi', of_decide_eq_true hp', ?_⟩
          intro j hj hcont
          exact hfirst' j hj (decide_eq_true hcont)
        · rintro ⟨hi, hp, hfirst⟩
          have hii : i' = i := by
            rcases Nat.lt_trichotomy i' i with hlt | heq | hgt
            · exact absurd (of_decide_eq_true hp') (hfirst i' hlt)
            · exact heq
            · exact absurd (decide_eq_true hp) (hfirst' i hgt)
          exact_mod_cast hii
  · intro hne hsort hwf hout
    rw [hA]
    obtain ⟨a, l, rfl⟩ : ∃ a l, cues = a :: l := by
      cases cues with
      | nil => exact absurd rfl hne
      | cons a l => exact ⟨a, l, rfl⟩
    have hlen : 0 < (a :: l).length := by simp
    have hhead : (a :: l).headD default = (a :: l).get ⟨0, hlen⟩ := rfl
    have hlast : (a :: l).getLastD default =
        (a :: l).get ⟨(a :: l).length - 1, by simp⟩ := by
      rw [List.getLastD_eq_getLast?, List.getLast?_eq_getElem?,
        List.getElem?_eq_getElem (by simp)]
      rfl
    intro c hc
    obtain ⟨i, hi, rfl⟩ := List.mem_iff_getElem.1 hc
    rcases hout with hout | hout
    · rw [hhead] at hout
      show ¬ cueContains ((a :: l).get ⟨i, hi⟩) t
      intro hcont
      have hle : secOf (((a :: l).get ⟨0, hlen⟩).start) ≤
          secOf (((a :: l).get ⟨i, hi⟩).start) := by
        rcases Nat.eq_zero_or_pos i with rfl | hpos
        · exact le_refl _
        · calc secOf (((a :: l).get ⟨0, hlen⟩).start)
              ≤ secOf (((a :: l).get ⟨0, hlen⟩).end_) :=
                hwf _ (List.get_mem _ _ _)
            _ ≤ secOf (((a :: l).get ⟨i, hi⟩).start) := hsort 0 i hlen hi hpos
      exact absurd hcont.1 (by linarith)
    · rw [hlast] at hout
      show ¬ cueContains ((a :: l).get ⟨i, hi⟩) t
      intro hcont
      have hlast_lt : (a :: l).length - 1 < (a :: l).length := by simp
      have hle : secOf (((a :: l).get ⟨i, hi⟩).end_) ≤
          secOf (((a :: l).get ⟨(a :: l).length - 1, hlast_lt⟩).end_) := by
        rcases Nat.lt_or_ge i ((a :: l).length - 1) with hlt | hge
        · calc secOf (((a :: l).get ⟨i, hi⟩).end_)
              ≤ secOf (((a :: l).get ⟨(a :: l).length - 1, hlast_lt⟩).start) :=
                hsort i _ hi hlast_lt hlt
            _ ≤ secOf (((a :: l).get ⟨(a :: l).length - 1, hlast_lt⟩).end_) :=
                hwf _ (List.get_mem _ _ _)
        · have : i = (a :: l).length - 1 := by omega
          subst this
          exact le_refl _
      exact absurd hcont.2 (by linarith)

/-- Claim C8, witness: the characterization instantiated at a concrete
two-cue list and `t = 0`. -/
theorem C8_findActiveIndex_witness :
    ((findActiveIndex cuesC2 0 = -1) ↔ ∀ c ∈ cuesC2, ¬ cueContains c 0) ∧
    (∀ i : Nat, (findActiveIndex cuesC2 0 = (i : Int)) ↔
      ∃ h : i < cuesC2.length, cueContains (cuesC2.get ⟨i, h⟩) 0 ∧
        ∀ j, (hj : j < i) → ¬ cueContains (cuesC2.get ⟨j, lt_trans hj h⟩) 0) ∧
    (cuesC2 ≠ [] →
      (∀ i j, (hi : i < cuesC2.length) → (hj : j < cuesC2.length) → i < j →
        secOf ((cuesC2.get ⟨i, hi⟩).end_) ≤ secOf ((cuesC2.get ⟨j, hj⟩).start)) →
      (∀ c ∈ cuesC2, secOf c.start ≤ secOf c.end_) →
      (0 < secOf ((cuesC2.headD default).start) ∨
        secOf ((cuesC2.getLastD default).end_) < 0) →
      findActiveIndex cuesC2 0 = -1) :=
  C8_findActiveIndex cuesC2 0

/-- Claim C5: for every time in `[0, 359999.999]` seconds (exact rational
arithmetic), `timeToSeconds (secondsToSRTTime t)` is `t` truncated to the
millisecond grid. -/
theorem C5_roundtrip (t : ℚ) (h0 : 0 ≤ t) (_h1 : t ≤ 359999999/1000) :
    timeToSeconds (secondsToSRTTime t) = some ((⌊1000 * t⌋ : ℚ) / 1000) :=
  timeToSeconds_secondsToSRTTime t h0

/-- Claim C5, witness at `t = 7205.5 s`. -/
theorem C5_roundtrip_witness :
    (0 : ℚ) ≤ 14411/2 ∧ (14411/2 : ℚ) ≤ 359999999/1000 ∧
    timeToSeconds (secondsToSRTTime (14411/2)) =
      some ((⌊1000 * (14411/2 : ℚ)⌋ : ℚ) / 1000) :=
  ⟨by norm_num, by norm_num, C5_roundtrip (14411/2) (by norm_num) (by norm_num)⟩

/-- Claim C1, counterexample: the single cue with text `" x"` satisfies
every hypothesis of the claim as stated (positive id, canonical
timestamps, non-empty text free of line breaks), yet
`parseSRT (generateSRTContent cues) ≠ cues`, because `parseSRT` trims the
text of each block. -/
theorem C1_counterexample :
    (∀ c ∈ cuesC1, 1 ≤ c.id ∧ isCanonicalTime c.start = true ∧
      isCanonicalTime c.end_ = true ∧ c.text ≠ [] ∧
      ∀ ch ∈ c.text, ch ≠ '\n' ∧ ch ≠ '\r') ∧
    parseSRT (generateSRTContent cuesC1) ≠ cuesC1 := by
  decide

/-- Claim C1 (amended): for every cue list whose cues have a positive id,
canonical `HH:MM:SS,mmm` timestamps, and text that is non-empty, free of
`'\n'` and `'\r'`, and equal to its own trim, serializing with
`generateSRTContent` and parsing with `parseSRT` returns the same list,
field for field. -/
theorem C1_amended : ∀ (cues : List Cue), (∀ c ∈ cues, goodCue c) →
    parseSRT (generateSRTContent cues) = cues := by
  intro cues hgood
  cases cues with
  | nil => decide
  | cons c0 rest =>
      have hg0 : goodCue c0 := hgood c0 (List.mem_cons_self _ _)
      have hgen := generate_eq (c0 :: rest) (by simp)
      have hnoCR : ∀ ch ∈ generateSRTContent (c0 :: rest), ch ≠ '\r' := by
        rw [hgen]
        intro ch hch
        rcases List.mem_append.1 hch with hJ | hNL
        · rcases mem_joinSep hJ with hsep | ⟨x, hx, hcx⟩
          · simp only [List.mem_cons, List.not_mem_nil, or_false] at hsep
            rcases hsep with rfl | rfl <;> decide
          · rcases List.mem_map.1 hx with ⟨d, hd, rfl⟩
            exact mem_cueCore_ne_cr (hgood d hd) ch hcx
        · simp only [List.mem_cons, List.not_mem_nil, or_false] at hNL
          subst hNL
          decide
      have hmap : (c0 :: rest).map cueCore = cueCore c0 :: rest.map cueCore :=
        List.map_cons _ _ _
      have hJne : joinSep ['\n', '\n'] ((c0 :: rest).map cueCore) ≠ [] := by
        rw [hmap]
        exact joinSep_ne_nil (cueCore_ne_nil c0 hg0.1)
      have hJh :
          isWS ((joinSep ['\n', '\n'] ((c0 :: rest).map cueCore)).headD ' ') = false := by
        rw [hmap, joinSep_headD (cueCore_ne_nil c0 hg0.1)]
        exact cueCore_head_nonws c0 hg0.1
      have hJr :
          isWS ((joinSep ['\n', '\n'] ((c0 :: rest).map cueCore)).reverse.headD ' ')
            = false := by
        rw [hmap]
        obtain ⟨last, hmem, hl⟩ :=
          @joinSep_revheadD ['\n', '\n'] ' ' (rest.map cueCore) (cueCore c0)
            (by
              intro e he
              rw [← hmap] at he
              rcases List.mem_map.1 he with ⟨d, hd, rfl⟩
              exact cueCore_ne_nil d (hgood d hd).1)
        rw [hl]
        rw [← hmap] at hmem
        rcases List.mem_map.1 hmem with ⟨d, hd, rfl⟩
        exact cueCore_rev_nonws d (hgood d hd)
      show (splitBlocks (trim (crToLF (stripCRLF (generateSRTContent
          (c0 :: rest)))))).enum.filterMap
        (fun p =>
          if trim p.2 = [] then none
          else
            let lines := splitOnChar '\n' (trim p.2)
            if 3 ≤ lines.length then parseSubtitleBlock lines p.1 else none) = c0 :: rest
      rw [stripCRLF_id _ hnoCR, crToLF_id _ hnoCR, hgen,
        trim_app_nl _ hJne hJh hJr,
        splitBlocks_join (c0 :: rest) (by simp) hgood]
      exact parse_join (c0 :: rest) hgood 0

/-- Claim C1, witness: the amended round-trip law instantiated at a
concrete two-cue canonical list. -/
theorem C1_amended_witness :
    (∀ c ∈ cuesC1w, goodCue c) ∧
    parseSRT (generateSRTContent cuesC1w) = cuesC1w :=
  ⟨by decide, C1_amended cuesC1w (by decide)⟩

end SrtApp
